import Mathlib

/-!
# Baby-name explorer: open-addressing hash table and letter trie

A shallow embedding of `HashTable` and `Trie` from `src/main.cpp`, followed by
the properties proved about them.

Modelling conventions.

* A C++ `string` is a Lean `String`, which stands for the bytes of its UTF-8
  encoding.  `HashTable::hashFunction` reads each byte as a `char`, which is
  signed: the bytes of a non-ASCII character are negative (`charValues`).
  `Trie` reads a character through its code `Char.toNat`; the bytes of a
  non-ASCII character and its code fall outside `a..z` alike.  `tolower` is
  the one of the "C" locale.
* The `int` arithmetic of `hashFunction` and of `capacity *= 2` is 32-bit: a
  result is taken modulo `2^32` into `-2^31 .. 2^31 - 1` (`wrapInt`, the
  wrap-around that the compiled code performs), and `%` truncates towards
  zero (`Int.tmod`), so that it keeps the sign of a negative operand.
* `capacity`, `size` and slot positions are natural numbers.  An index that is
  negative, or not below the length of the slot vector, has no slot: an
  operation that reads or writes `table[index]` there has no defined result,
  which is `none`.
* Stored values and counts (`value`, `popularityCount`) are exact integers.
* `hashExact`, `insertExact`, `getExact` and `resizeExact` repeat the
  operations of the table in exact integer arithmetic over non-negative
  character codes.  The loader and the properties that are stated in exact
  integer arithmetic are about them; on ASCII keys and capacities up to
  `hashBound` they compute what the 32-bit operations compute.
* The load-factor test `(double)size / capacity > 0.7` is the exact test
  `10 * size > 7 * capacity`: for 32-bit operands the rounded quotient
  exceeds the rounded constant `0.7` exactly when the rational one does.
* A `while` loop and the recursion `insert -> resize -> insert` are bounded by
  an explicit step counter; `none` is also the result of a run that exhausts
  it.
-/

namespace BabyNames

/-! ## Hash table -/

/-- One slot of the table (`HashTable::Entry`). -/
structure Entry where
  key : String
  value : Int
  occupied : Bool
  deleted : Bool
deriving DecidableEq

/-- The default-constructed slot `Entry()`: empty key, value 0, both flags false. -/
def Entry.empty : Entry := ⟨"", 0, false, false⟩

/-- A slot that holds a current entry: `occupied && !deleted`. -/
def Entry.live (e : Entry) : Bool := e.occupied && !e.deleted

/-- The private state of `HashTable`: the slot vector, `capacity` and `size`. -/
structure HashTable where
  table : List Entry
  capacity : Nat
  size : Nat
deriving DecidableEq

/-- The outcome of the probe loop of `insert`: it stops at a slot, or comes back to the
slot it started from. -/
inductive ProbeResult where
  | found (index : Nat)
  | fullCycle
deriving DecidableEq

/-- The bytes of the UTF-8 encoding of the character with code `c`: the bytes that a
`std::string` read from the data file or the terminal holds for it. -/
def utf8Bytes (c : Nat) : List Nat :=
  if c < 128 then [c]
  else if c < 2048 then [192 + c / 64, 128 + c % 64]
  else if c < 65536 then [224 + c / 4096, 128 + c / 64 % 64, 128 + c % 64]
  else [240 + c / 262144, 128 + c / 4096 % 64, 128 + c / 64 % 64, 128 + c % 64]

/-- The value of a byte as a `char`, which is signed (as on x86-64): bytes from 128 on
are negative. -/
def toSignedChar (b : Nat) : Int := if b < 128 then (b : Int) else (b : Int) - 256

/-- The `char` values that `for (char c : key)` runs through. -/
def charValues (key : String) : List Int :=
  (key.toList.flatMap (fun c => utf8Bytes c.toNat)).map toSignedChar

/-- A result of 32-bit `int` arithmetic: the value modulo `2^32`, in
`-2^31 .. 2^31 - 1`. -/
def wrapInt (x : Int) : Int := (x + 2147483648) % 4294967296 - 2147483648

namespace HashTable

/-- The constructor `HashTable(int initialCapacity)`. -/
def new (initialCapacity : Nat) : HashTable :=
  ⟨List.replicate initialCapacity Entry.empty, initialCapacity, 0⟩

/-- `hashFunction`: `hash = (hash * 31 + c) % capacity` over the `char` values of the key,
in 32-bit `int` arithmetic with the truncating `%` of C++; `none` when `capacity` is 0
(a division by zero). -/
def hashFunction (t : HashTable) (key : String) : Option Int :=
  (charValues key).foldlM
    (fun hash c =>
      if t.capacity = 0 then none
      else some ((wrapInt (hash * 31 + c)).tmod (t.capacity : Int)))
    0

/-- The start of a probe, `index = hashFunction(key)`, as a position in the slot vector;
`none` when `hashFunction` is undefined or the index is negative, where the first
`table[index]` reads outside the vector. -/
def homeSlot (t : HashTable) (key : String) : Option Nat :=
  match t.hashFunction key with
  | none => none
  | some index => if index < 0 then none else some index.toNat

/-- The `while` loop of `insert`, started at `index` with `steps` iterations allowed. -/
def insertProbe (t : HashTable) (key : String) (originalIndex : Nat) :
    Nat → Nat → Option ProbeResult
  | 0, _ => none
  | steps + 1, index =>
    match t.table[index]? with
    | none => none
    | some e =>
      if e.occupied && !e.deleted && e.key != key then
        let index' := (index + 1) % t.capacity
        if index' = originalIndex then some ProbeResult.fullCycle
        else insertProbe t key originalIndex steps index'
      else some (ProbeResult.found index)

/-- The tail of `insert` after the loop: bump `size` when the slot held no current entry,
then write key, value and flags into the slot. -/
def store (t : HashTable) (index : Nat) (key : String) (value : Int) : Option HashTable :=
  match t.table[index]? with
  | none => none
  | some e =>
    some ⟨t.table.set index ⟨key, value, true, false⟩, t.capacity,
      if !e.occupied || e.deleted then t.size + 1 else t.size⟩

/-- The body of `resize`, with the `insert` it calls passed in as `ins`: double the
capacity in 32-bit `int` arithmetic, start from a fresh slot vector with `size = 0`
(`none` when the doubled capacity is negative and `vector<Entry>(capacity)` throws), and
re-insert every entry of the old vector that is occupied and not deleted. -/
def resizeWith (ins : HashTable → String → Int → Option HashTable) (t : HashTable) :
    Option HashTable :=
  let capacity := wrapInt ((t.capacity : Int) * 2)
  if capacity < 0 then none
  else
    t.table.foldlM
      (fun acc entry =>
        if entry.occupied && !entry.deleted then ins acc entry.key entry.value else some acc)
      ⟨List.replicate capacity.toNat Entry.empty, capacity.toNat, 0⟩

/-- The body of `insert`, with the `insert` it calls (directly in the retry, and through
`resize`) passed in as `ins`: the load-factor test, the probe loop from `hashFunction(key)`,
the resize-and-retry branch, and the write into the slot where the loop stopped. -/
def insertWith (ins : HashTable → String → Int → Option HashTable) (t : HashTable)
    (key : String) (value : Int) : Option HashTable :=
  match (if 10 * t.size > 7 * t.capacity then resizeWith ins t else some t) with
  | none => none
  | some t1 =>
    match t1.homeSlot key with
    | none => none
    | some index =>
      match t1.insertProbe key index t1.capacity index with
      | none => none
      | some ProbeResult.fullCycle =>
        match resizeWith ins t1 with
        | none => none
        | some t2 => ins t2 key value
      | some (ProbeResult.found index) => t1.store index key value

/-- `insert`, with `fuel` bounding the depth of the recursion through `resize`. -/
def insert : Nat → HashTable → String → Int → Option HashTable
  | 0 => fun _ _ _ => none
  | fuel + 1 => insertWith (insert fuel)

/-- `resize`: the body above with the recursive `insert`. -/
def resize (fuel : Nat) (t : HashTable) : Option HashTable :=
  resizeWith (insert fuel) t

/-- The `while` loop of `get`, started at `index` with `steps` iterations allowed. -/
def getProbe (t : HashTable) (key : String) (originalIndex : Nat) : Nat → Nat → Option Int
  | 0, _ => none
  | steps + 1, index =>
    match t.table[index]? with
    | none => none
    | some e =>
      if e.occupied then
        if !e.deleted && e.key == key then some e.value
        else
          let index' := (index + 1) % t.capacity
          if index' = originalIndex then some 0
          else getProbe t key originalIndex steps index'
      else some 0

/-- `get`: probe from the home slot; the loop runs at most `capacity` times. -/
def get (t : HashTable) (key : String) : Option Int :=
  match t.homeSlot key with
  | none => none
  | some index => t.getProbe key index t.capacity index

/-- `getAllKeys`: the keys of the occupied, non-deleted slots in slot order. -/
def getAllKeys (t : HashTable) : List String :=
  (t.table.filter (fun entry => entry.occupied && !entry.deleted)).map Entry.key

/-- A sequence of `insert` calls, left to right. -/
def insertAll (fuel : Nat) (t : HashTable) (ops : List (String × Int)) : Option HashTable :=
  ops.foldlM (fun acc kv => insert fuel acc kv.1 kv.2) t

/-! ### The same operations in exact integer arithmetic

The loops of the source once more, in the reading in which a `char` is a non-negative
character code and `int` arithmetic never overflows.  They are not what the program
computes when a `char` is negative or an `int` overflows: the properties that are stated
in exact integer arithmetic are about these definitions, and on keys of ASCII characters
and capacities up to 69273662 they compute what the operations above compute
(`HashTable.homeSlot_eq`, `HashTable.insert_eq`, `HashTable.reach_spec`), which is how
they serve in the proofs about the operations above. -/

/-- `hashFunction` in exact arithmetic over the character codes of the key. -/
def hashExact (t : HashTable) (key : String) : Nat :=
  key.toList.foldl (fun hash c => (hash * 31 + c.toNat) % t.capacity) 0

/-- The body of `resize` in exact arithmetic. -/
def resizeWithExact (ins : HashTable → String → Int → Option HashTable) (t : HashTable) :
    Option HashTable :=
  t.table.foldlM
    (fun acc entry =>
      if entry.occupied && !entry.deleted then ins acc entry.key entry.value else some acc)
    ⟨List.replicate (t.capacity * 2) Entry.empty, t.capacity * 2, 0⟩

/-- `insert` in exact arithmetic. -/
def insertExact : Nat → HashTable → String → Int → Option HashTable
  | 0, _, _, _ => none
  | fuel + 1, t, key, value =>
    match (if 10 * t.size > 7 * t.capacity then resizeWithExact (insertExact fuel) t else some t) with
    | none => none
    | some t1 =>
      let index := t1.hashExact key
      match t1.insertProbe key index t1.capacity index with
      | none => none
      | some ProbeResult.fullCycle =>
        match resizeWithExact (insertExact fuel) t1 with
        | none => none
        | some t2 => insertExact fuel t2 key value
      | some (ProbeResult.found index) => t1.store index key value

/-- `resize` in exact arithmetic. -/
def resizeExact (fuel : Nat) (t : HashTable) : Option HashTable :=
  resizeWithExact (insertExact fuel) t

/-- `get` in exact arithmetic. -/
def getExact (t : HashTable) (key : String) : Option Int :=
  let index := t.hashExact key
  t.getProbe key index t.capacity index

/-- A sequence of `insert` calls in exact arithmetic, left to right. -/
def insertAllExact (fuel : Nat) (t : HashTable) (ops : List (String × Int)) : Option HashTable :=
  ops.foldlM (fun acc kv => insertExact fuel acc kv.1 kv.2) t

end HashTable

/-! ## Trie -/

/-- A `TrieNode`: 26 child pointers (`none` is `nullptr`), `isEndOfWord`,
`popularityCount` and `fullName`. -/
inductive TrieNode where
  | mk (children : Fin 26 → Option TrieNode) (isEndOfWord : Bool) (popularityCount : Int)
      (fullName : String) : TrieNode

namespace TrieNode

/-- The constructor `TrieNode()`: all children null, not a word end, count 0. -/
def new : TrieNode := TrieNode.mk (fun _ => none) false 0 ""

def children : TrieNode → Fin 26 → Option TrieNode
  | mk c _ _ _ => c

def isEndOfWord : TrieNode → Bool
  | mk _ e _ _ => e

def popularityCount : TrieNode → Int
  | mk _ _ p _ => p

def fullName : TrieNode → String
  | mk _ _ _ f => f

end TrieNode

/-- C `tolower` on a character code (the "C" locale): `A`..`Z` go to `a`..`z`. -/
def tolower (c : Nat) : Nat := if 65 ≤ c ∧ c ≤ 90 then c + 32 else c

/-- The string `lowerName`: every character of `name` passed through `tolower`. -/
def lowerName (name : String) : List Nat := name.toList.map (fun c => tolower c.toNat)

/-- The slot `index = c - 'a'` of a character, when `0 ≤ index < 26`. -/
def childIndex (c : Nat) : Option (Fin 26) :=
  let index : Int := (c : Int) - 97
  if h : index < 0 ∨ index ≥ 26 then none else some ⟨index.toNat, by omega⟩

/-- The second loop of `Trie::insert` and the three writes after it, from node `current`
over the remaining characters; the result is the updated subtree. -/
def TrieNode.insertFrom (name : String) (count : Int) : List Nat → TrieNode → TrieNode
  | [], TrieNode.mk ch _ pc _ => TrieNode.mk ch true (pc + count) name
  | c :: cs, TrieNode.mk ch e pc fn =>
    match childIndex c with
    | none => TrieNode.insertFrom name count cs (TrieNode.mk ch e pc fn)
    | some index =>
      let child := match ch index with
        | none => TrieNode.new
        | some n => n
      TrieNode.mk (Function.update ch index (some (TrieNode.insertFrom name count cs child)))
        e pc fn

/-- The loop of `Trie::search` and the test after it, from node `current`. -/
def TrieNode.searchFrom : List Nat → TrieNode → Int
  | [], current => if current.isEndOfWord then current.popularityCount else 0
  | c :: cs, current =>
    match childIndex c with
    | none => 0
    | some index =>
      match current.children index with
      | none => 0
      | some child => TrieNode.searchFrom cs child

/-- The class `Trie`: its root node. -/
structure Trie where
  root : TrieNode

namespace Trie

/-- The constructor `Trie()`. -/
def new : Trie := ⟨TrieNode.new⟩

/-- `Trie::insert(name, count)`. -/
def insert (t : Trie) (name : String) (count : Int) : Trie :=
  ⟨TrieNode.insertFrom name count (lowerName name) t.root⟩

/-- `Trie::search(name)`. -/
def search (t : Trie) (name : String) : Int :=
  TrieNode.searchFrom (lowerName name) t.root

/-- A sequence of `Trie::insert` calls, left to right. -/
def insertAll (t : Trie) (ops : List (String × Int)) : Trie :=
  ops.foldl (fun acc kv => acc.insert kv.1 kv.2) t

end Trie

/-! ## Specification vocabulary for the hash table -/

/-- The loop condition of `insert`: the slot holds a current entry with another key. -/
def Entry.blocks (e : Entry) (key : String) : Bool :=
  e.occupied && !e.deleted && e.key != key

/-- The match test of `get`: the slot is not deleted and holds `key`. -/
def Entry.hit (e : Entry) (key : String) : Bool :=
  !e.deleted && e.key == key

namespace HashTable

/-- The table stores `k` with value `v` in some occupied, non-deleted slot. -/
def Holds (t : HashTable) (k : String) (v : Int) : Prop :=
  ∃ (i : Nat) (e : Entry), t.table[i]? = some e ∧ e.live = true ∧ e.key = k ∧ e.value = v

/-- The invariant of the tables built by the constructor and `insert`. -/
structure Inv (t : HashTable) : Prop where
  len : t.table.length = t.capacity
  pos : 0 < t.capacity
  noTomb : ∀ (i : Nat) (e : Entry), t.table[i]? = some e → e.deleted = false
  sizeEq : t.size = t.table.countP Entry.live
  distinct : ∀ (i j : Nat) (e1 e2 : Entry), t.table[i]? = some e1 → t.table[j]? = some e2 →
    e1.occupied = true → e2.occupied = true → e1.key = e2.key → i = j
  chain : ∀ (k : String) (d : Nat) (e : Entry), d < t.capacity →
    t.table[(t.hashExact k + d) % t.capacity]? = some e → e.occupied = true → e.key = k →
    ∀ j, j < d → ∃ e', t.table[(t.hashExact k + j) % t.capacity]? = some e' ∧
      e'.occupied = true

/-- What one `insert t k v` with result `t'` achieves: the invariant, the `size`
bookkeeping, and the stored contents. -/
structure InsertPost (t t' : HashTable) (k : String) (v : Int) : Prop where
  inv : t'.Inv
  sizeOld : (∃ v0, t.Holds k v0) → t'.size = t.size
  sizeNew : (∀ v0, ¬ t.Holds k v0) → t'.size = t.size + 1
  holds : ∀ k' v', t'.Holds k' v' ↔ (k' = k ∧ v' = v) ∨ (k' ≠ k ∧ t.Holds k' v')

/-- The re-insertion step of `resize` for one entry of the old slot vector. -/
def refillStep (ins : HashTable → String → Int → Option HashTable) (acc : HashTable)
    (entry : Entry) : Option HashTable :=
  if entry.occupied && !entry.deleted then ins acc entry.key entry.value else some acc

/-- The current entries of a slot list have pairwise distinct keys. -/
def DistinctLive (es : List Entry) : Prop :=
  es.Pairwise (fun a b => a.live = true → b.live = true → a.key ≠ b.key)

/-- The value of the last pair of `ops` whose key is `k`, if there is one. -/
def lastValue (ops : List (String × Int)) (k : String) : Option Int :=
  ((ops.filter (fun kv => kv.1 = k)).getLast?).map Prod.snd

end HashTable

/-! ## Specification vocabulary for the trie -/

/-- A character code that is an ASCII letter, `A`..`Z` or `a`..`z`. -/
def isLetter (c : Nat) : Bool := (65 ≤ c && c ≤ 90) || (97 ≤ c && c ≤ 122)

/-- The key consists only of letters `a`-`z` / `A`-`Z`. -/
def lettersOnly (k : String) : Prop := ∀ c ∈ k.toList, isLetter c.toNat = true

instance (k : String) : Decidable (lettersOnly k) := by
  unfold lettersOnly; infer_instance

/-- The normalized key: lowercased, with the non-letter characters dropped. -/
def normalize (name : String) : List Nat := (lowerName name).filter isLetter

/-- Two character codes that are equal or differ only in ASCII case. -/
def sameLetter (a b : Nat) : Bool :=
  a == b || (65 ≤ a && a ≤ 90 && b == a + 32) || (65 ≤ b && b ≤ 90 && a == b + 32)

/-- Two code sequences of the same length whose characters pairwise differ at most in case. -/
def caseVariantCodes : List Nat → List Nat → Bool
  | [], [] => true
  | a :: as, b :: bs => sameLetter a b && caseVariantCodes as bs
  | _, _ => false

/-- The key `k'` is a case variant of the key `k`. -/
def caseVariant (k k' : String) : Bool :=
  caseVariantCodes (k.toList.map Char.toNat) (k'.toList.map Char.toNat)

/-- The child slots visited for a lowercased name: one per character that has a slot. -/
def path (cs : List Nat) : List (Fin 26) := cs.filterMap childIndex

/-- The node reached from `n` by following the child slots `p`, if every child exists. -/
def TrieNode.nodeAt : List (Fin 26) → TrieNode → Option TrieNode
  | [], n => some n
  | i :: p, n =>
    match n.children i with
    | none => none
    | some child => TrieNode.nodeAt p child

/-- The `popularityCount` stored at the end of path `p` (0 when the path is absent). -/
def TrieNode.countAt (p : List (Fin 26)) (n : TrieNode) : Int :=
  match TrieNode.nodeAt p n with
  | none => 0
  | some m => m.popularityCount

/-- The `isEndOfWord` flag stored at the end of path `p` (false when the path is absent). -/
def TrieNode.endAt (p : List (Fin 26)) (n : TrieNode) : Bool :=
  match TrieNode.nodeAt p n with
  | none => false
  | some m => m.isEndOfWord

/-- The sum of the amounts of the inserts whose normalized key is `target`. -/
def amountFor (target : List Nat) (ops : List (String × Int)) : Int :=
  ((ops.filter (fun kv => normalize kv.1 = target)).map Prod.snd).sum

/-! ## The constructor on an `int`, the loader, and further vocabulary -/

/-- The constructor called with an `int` argument.  A negative `initialCapacity` reaches
`vector<Entry>(capacity)` as a count above `max_size()`, the vector constructor throws and
no table object exists; otherwise the table is `HashTable.new`. -/
def HashTable.construct (initialCapacity : Int) : Option HashTable :=
  if initialCapacity < 0 then none else some (HashTable.new initialCapacity.toNat)

/-- The polynomial `c_0 * 31^(n-1) + c_1 * 31^(n-2) + ... + c_(n-1)` of a code sequence. -/
def polyHash : List Nat → Nat
  | [] => 0
  | c :: cs => c * 31 ^ cs.length + polyHash cs

/-- The two updates `loadData` makes for one record `(name, count)`:
`nameTotalCounts.insert(name, nameTotalCounts.get(name) + count)` and
`nameTrie.insert(name, count)`, in exact integer arithmetic. -/
def loadRecord (fuel : Nat) (s : HashTable × Trie) (name : String) (count : Int) :
    Option (HashTable × Trie) :=
  match s.1.getExact name with
  | none => none
  | some currentCount =>
    match HashTable.insertExact fuel s.1 name (currentCount + count) with
    | none => none
    | some table => some (table, s.2.insert name count)

/-- The loop of `loadData` over the parsed records, left to right. -/
def loadAll (fuel : Nat) (s : HashTable × Trie) (records : List (String × Int)) :
    Option (HashTable × Trie) :=
  records.foldlM (fun acc r => loadRecord fuel acc r.1 r.2) s

/-- The sum of the counts of the records whose name is exactly `name`. -/
def countFor (name : String) (records : List (String × Int)) : Int :=
  ((records.filter (fun r => r.1 = name)).map Prod.snd).sum

/-- A table of capacity 4 with a deleted slot, used as a concrete state: the home slot of
"a" (slot 1) holds a deleted entry for "a", slot 2 holds "b", slot 3 holds the current
entry for "a", slot 0 was never occupied. -/
def tombstoneTable : HashTable :=
  ⟨[Entry.empty, ⟨"a", 1, true, true⟩, ⟨"b", 2, true, false⟩, ⟨"a", 7, true, false⟩], 4, 2⟩

/-- Slot `i` holds a current entry (occupied and not deleted). -/
def HashTable.liveAt (t : HashTable) (i : Nat) : Bool :=
  match t.table[i]? with
  | some e => e.live
  | none => false

/-- Slot `i` holds the current entry of key `k`. -/
def HashTable.holdsAt (t : HashTable) (i : Nat) (k : String) : Bool :=
  match t.table[i]? with
  | some e => e.live && e.key == k
  | none => false

/-- On the probe path of `k`, which starts at `homeSlot k`, no deleted and no
never-occupied slot lies before a slot that holds the current entry of `k`. -/
def HashTable.LiveFirst (t : HashTable) (k : String) : Prop :=
  ∀ h ∈ t.homeSlot k, ∀ d, d < t.capacity →
    t.holdsAt ((h + d) % t.capacity) k = true →
    ∀ j, j < d → t.liveAt ((h + j) % t.capacity) = true

instance (t : HashTable) (k : String) : Decidable (t.LiveFirst k) := by
  unfold HashTable.LiveFirst; infer_instance

/-- A second table of capacity 4 with a deleted slot: slot 1 holds "a", slot 2 holds "e"
(whose home slot is 1), slot 3 holds a deleted entry for "c", slot 0 was never occupied. -/
def tombstoneTable2 : HashTable :=
  ⟨[Entry.empty, ⟨"a", 1, true, false⟩, ⟨"e", 2, true, false⟩, ⟨"c", 3, true, true⟩], 4, 2⟩

/-- Every character of the key is an ASCII character: its `char` value is non-negative. -/
def asciiKey (key : String) : Prop := ∀ c ∈ key.toList, c.toNat < 128

instance (key : String) : Decidable (asciiKey key) := by
  unfold asciiKey; infer_instance

/-- The largest capacity at which `hash * 31 + c` stays within a 32-bit `int` for every
`hash < capacity` and every ASCII `c`: `31 * (69273662 - 1) + 127 < 2^31`. -/
def hashBound : Nat := 69273662

/-- The inputs on which the `char` and `int` arithmetic of the table is exact: a positive
initial capacity of at most `hashBound`, ASCII keys, and few enough inserts
(`3 * length ≤ hashBound`) for every doubled capacity to stay at most `hashBound`. -/
def InRange (c : Nat) (ops : List (String × Int)) : Prop :=
  0 < c ∧ c ≤ hashBound ∧ 3 * ops.length ≤ hashBound ∧ ∀ kv ∈ ops, asciiKey kv.1

instance (c : Nat) (ops : List (String × Int)) : Decidable (InRange c ops) := by
  unfold InRange; infer_instance

/-- The part of the invariant that does not depend on where the keys hash to: the table
has `capacity` slots, `capacity` is positive and fits an `int`, no slot is deleted, and
`size` is the number of current entries. -/
structure HashTable.Shape (t : HashTable) : Prop where
  len : t.table.length = t.capacity
  pos : 0 < t.capacity
  fits : t.capacity < 2147483648
  noTomb : ∀ (i : Nat) (e : Entry), t.table[i]? = some e → e.deleted = false
  sizeEq : t.size = t.table.countP Entry.live

/-- What a defined `insert` keeps of the shape of a table: used for the `insert` that
`resize` and the retry call. -/
def HashTable.KeepsShape (ins : HashTable → String → Int → Option HashTable) : Prop :=
  ∀ (a : HashTable) (k : String) (v : Int) (b : HashTable), a.Shape → ins a k v = some b →
    b.Shape ∧ b.size ≤ a.size + 1 ∧ a.capacity ≤ b.capacity

/-! ## Lemmas: trie -/

theorem childIndex_isSome (c : Nat) : (childIndex c).isSome = (97 ≤ c && c ≤ 122) := by
  unfold childIndex
  by_cases h : 97 ≤ c ∧ c ≤ 122
  · have : ¬ ((c : Int) - 97 < 0 ∨ (c : Int) - 97 ≥ 26) := by omega
    simp [this, h.1, h.2]
    omega
  · have : ((c : Int) - 97 < 0 ∨ (c : Int) - 97 ≥ 26) := by omega
    simp only [this, dite_true, Option.isSome_none]
    rcases Nat.lt_or_ge c 97 with h1 | h1
    · simp; omega
    · have : ¬ c ≤ 122 := fun h2 => h ⟨h1, h2⟩
      simp; omega

theorem childIndex_val {c : Nat} {i : Fin 26} (h : childIndex c = some i) : c = i.val + 97 := by
  simp only [childIndex] at h
  split at h
  · simp at h
  · rename_i hn
    simp only [Option.some.injEq] at h
    subst h
    simp only
    omega

theorem isLetter_tolower (c : Nat) :
    isLetter (tolower c) = (childIndex (tolower c)).isSome := by
  rw [childIndex_isSome]
  unfold isLetter tolower
  split <;> rename_i h
  · have h1 : ¬ (c + 32 ≤ 90) := by omega
    simp [h1]
  · by_cases h2 : 65 ≤ c
    · have : ¬ c ≤ 90 := fun h3 => h ⟨h2, h3⟩
      simp [this]
    · have : ¬ c ≤ 90 ∨ c ≤ 90 := by omega
      simp [h2]

theorem isLetter_true_tolower {c : Nat} (h : isLetter c = true) :
    (childIndex (tolower c)).isSome = true := by
  rw [childIndex_isSome]
  unfold isLetter at h
  unfold tolower
  simp only [Bool.or_eq_true, Bool.and_eq_true, decide_eq_true_eq] at h
  split <;> simp <;> omega

theorem TrieNode.nodeAt_new_cons (i : Fin 26) (p : List (Fin 26)) :
    TrieNode.nodeAt (i :: p) TrieNode.new = none := by
  simp [TrieNode.nodeAt, TrieNode.new, TrieNode.children]

theorem TrieNode.countAt_new (p : List (Fin 26)) : TrieNode.countAt p TrieNode.new = 0 := by
  cases p with
  | nil => simp [TrieNode.countAt, TrieNode.nodeAt, TrieNode.new, TrieNode.popularityCount]
  | cons i p => simp [TrieNode.countAt, TrieNode.nodeAt_new_cons]

theorem TrieNode.endAt_new (p : List (Fin 26)) : TrieNode.endAt p TrieNode.new = false := by
  cases p with
  | nil => simp [TrieNode.endAt, TrieNode.nodeAt, TrieNode.new, TrieNode.isEndOfWord]
  | cons i p => simp [TrieNode.endAt, TrieNode.nodeAt_new_cons]

theorem TrieNode.countAt_cons (i : Fin 26) (q : List (Fin 26)) (n : TrieNode) :
    TrieNode.countAt (i :: q) n =
      match n.children i with
      | none => 0
      | some child => TrieNode.countAt q child := by
  simp only [TrieNode.countAt, TrieNode.nodeAt]
  cases n.children i <;> rfl

theorem TrieNode.endAt_cons (i : Fin 26) (q : List (Fin 26)) (n : TrieNode) :
    TrieNode.endAt (i :: q) n =
      match n.children i with
      | none => false
      | some child => TrieNode.endAt q child := by
  simp only [TrieNode.endAt, TrieNode.nodeAt]
  cases n.children i <;> rfl

theorem TrieNode.countAt_insertFrom (name : String) (a : Int) :
    ∀ (cs : List Nat) (n : TrieNode) (q : List (Fin 26)),
      TrieNode.countAt q (TrieNode.insertFrom name a cs n) =
        TrieNode.countAt q n + if path cs = q then a else 0 := by
  intro cs
  induction cs with
  | nil =>
    intro n q
    cases n with
    | mk ch e pc fn =>
      cases q with
      | nil =>
        simp [TrieNode.insertFrom, TrieNode.countAt, TrieNode.nodeAt, path,
          TrieNode.popularityCount]
      | cons j q =>
        simp [TrieNode.insertFrom, TrieNode.countAt_cons, TrieNode.children, path]
  | cons c cs ih =>
    intro n q
    cases n with
    | mk ch e pc fn =>
      cases hci : childIndex c with
      | none =>
        simp only [TrieNode.insertFrom, hci, path, List.filterMap_cons_none]
        exact ih _ _
      | some i =>
        have hp : path (c :: cs) = i :: path cs := by
          simp [path, List.filterMap_cons_some hci]
        rw [hp]
        simp only [TrieNode.insertFrom, hci]
        cases q with
        | nil =>
          simp [TrieNode.countAt, TrieNode.nodeAt, TrieNode.popularityCount]
        | cons j q =>
          rw [TrieNode.countAt_cons, TrieNode.countAt_cons]
          simp only [TrieNode.children]
          by_cases hji : j = i
          · subst hji
            simp only [Function.update_same, List.cons.injEq, true_and]
            rw [ih]
            cases hch : ch j with
            | none => simp [TrieNode.countAt_new]
            | some child => simp
          · have hne : ¬ (i = j) := fun h => hji h.symm
            simp [Function.update_noteq hji, hne]

theorem TrieNode.endAt_insertFrom (name : String) (a : Int) :
    ∀ (cs : List Nat) (n : TrieNode) (q : List (Fin 26)),
      TrieNode.endAt q (TrieNode.insertFrom name a cs n) =
        (TrieNode.endAt q n || decide (path cs = q)) := by
  intro cs
  induction cs with
  | nil =>
    intro n q
    cases n with
    | mk ch e pc fn =>
      cases q with
      | nil =>
        simp [TrieNode.insertFrom, TrieNode.endAt, TrieNode.nodeAt, path,
          TrieNode.isEndOfWord]
      | cons j q =>
        simp [TrieNode.insertFrom, TrieNode.endAt_cons, TrieNode.children, path]
  | cons c cs ih =>
    intro n q
    cases n with
    | mk ch e pc fn =>
      cases hci : childIndex c with
      | none =>
        simp only [TrieNode.insertFrom, hci, path, List.filterMap_cons_none]
        exact ih _ _
      | some i =>
        have hp : path (c :: cs) = i :: path cs := by
          simp [path, List.filterMap_cons_some hci]
        rw [hp]
        simp only [TrieNode.insertFrom, hci]
        cases q with
        | nil =>
          simp [TrieNode.endAt, TrieNode.nodeAt, TrieNode.isEndOfWord]
        | cons j q =>
          rw [TrieNode.endAt_cons, TrieNode.endAt_cons]
          simp only [TrieNode.children]
          by_cases hji : j = i
          · subst hji
            simp only [Function.update_same, List.cons.injEq, true_and]
            rw [ih]
            cases hch : ch j with
            | none => simp [TrieNode.endAt_new]
            | some child => simp
          · have hne : ¬ (i = j) := fun h => hji h.symm
            simp [Function.update_noteq hji, hne]

theorem TrieNode.searchFrom_eq :
    ∀ (cs : List Nat) (n : TrieNode), (∀ c ∈ cs, (childIndex c).isSome = true) →
      TrieNode.searchFrom cs n =
        if TrieNode.endAt (path cs) n then TrieNode.countAt (path cs) n else 0 := by
  intro cs
  induction cs with
  | nil =>
    intro n _
    simp [TrieNode.searchFrom, path, TrieNode.endAt, TrieNode.countAt, TrieNode.nodeAt]
  | cons c cs ih =>
    intro n h
    have hc := h c (List.mem_cons_self _ _)
    obtain ⟨i, hi⟩ := Option.isSome_iff_exists.mp hc
    have hp : path (c :: cs) = i :: path cs := by
      simp [path, List.filterMap_cons_some hi]
    rw [hp, TrieNode.endAt_cons, TrieNode.countAt_cons]
    simp only [TrieNode.searchFrom, hi]
    cases hch : n.children i with
    | none => simp
    | some child =>
      simp only
      exact ih child (fun c' hc' => h c' (List.mem_cons_of_mem _ hc'))

theorem TrieNode.searchFrom_new (cs : List Nat) : TrieNode.searchFrom cs TrieNode.new = 0 := by
  cases cs with
  | nil => simp [TrieNode.searchFrom, TrieNode.new, TrieNode.isEndOfWord]
  | cons c cs =>
    simp only [TrieNode.searchFrom]
    cases childIndex c with
    | none => rfl
    | some i => simp [TrieNode.new, TrieNode.children]

theorem Trie.countAt_insertAll (ops : List (String × Int)) :
    ∀ (t : Trie) (q : List (Fin 26)),
      TrieNode.countAt q (Trie.insertAll t ops).root =
        TrieNode.countAt q t.root +
          ((ops.filter (fun kv => path (lowerName kv.1) = q)).map Prod.snd).sum := by
  induction ops with
  | nil => intro t q; simp [Trie.insertAll]
  | cons kv ops ih =>
    intro t q
    have hstep : Trie.insertAll t (kv :: ops) = Trie.insertAll (t.insert kv.1 kv.2) ops := rfl
    rw [hstep, ih]
    simp only [Trie.insert, TrieNode.countAt_insertFrom, List.filter_cons]
    by_cases h : path (lowerName kv.1) = q
    · simp [h, add_assoc]
    · simp [h]

theorem Trie.endAt_insertAll (ops : List (String × Int)) :
    ∀ (t : Trie) (q : List (Fin 26)),
      TrieNode.endAt q (Trie.insertAll t ops).root =
        (TrieNode.endAt q t.root || ops.any (fun kv => decide (path (lowerName kv.1) = q))) := by
  induction ops with
  | nil => intro t q; simp [Trie.insertAll]
  | cons kv ops ih =>
    intro t q
    have hstep : Trie.insertAll t (kv :: ops) = Trie.insertAll (t.insert kv.1 kv.2) ops := rfl
    rw [hstep, ih]
    simp only [Trie.insert, TrieNode.endAt_insertFrom, List.any_cons, Bool.or_assoc]

theorem path_unpath :
    ∀ cs : List Nat, (∀ c ∈ cs, (childIndex c).isSome = true) →
      (path cs).map (fun i => i.val + 97) = cs := by
  intro cs
  induction cs with
  | nil => intro _; rfl
  | cons c cs ih =>
    intro h
    obtain ⟨i, hi⟩ := Option.isSome_iff_exists.mp (h c (List.mem_cons_self _ _))
    have hp : path (c :: cs) = i :: path cs := by
      simp [path, List.filterMap_cons_some hi]
    rw [hp, List.map_cons, ih (fun c' hc' => h c' (List.mem_cons_of_mem _ hc')),
      ← childIndex_val hi]

theorem path_filter (cs : List Nat) :
    path (cs.filter (fun c => (childIndex c).isSome)) = path cs := by
  induction cs with
  | nil => rfl
  | cons c cs ih =>
    cases hci : childIndex c with
    | none =>
      simp only [path] at ih
      simp [path, List.filter_cons, hci, ih]
    | some i =>
      simp only [path] at ih
      simp [path, List.filter_cons, hci, ih]

theorem normalize_eq (name : String) :
    normalize name = (lowerName name).filter (fun c => (childIndex c).isSome) := by
  unfold normalize lowerName
  apply List.filter_congr
  intro c hc
  obtain ⟨x, _, rfl⟩ := List.mem_map.mp hc
  exact isLetter_tolower _

theorem lowerName_isSome {k : String} (hk : lettersOnly k) :
    ∀ c ∈ lowerName k, (childIndex c).isSome = true := by
  intro c hc
  obtain ⟨x, hx, rfl⟩ := List.mem_map.mp hc
  exact isLetter_true_tolower (hk x hx)

theorem path_eq_iff (name k : String) (hk : lettersOnly k) :
    path (lowerName name) = path (lowerName k) ↔ normalize name = lowerName k := by
  have hn : ∀ c ∈ normalize name, (childIndex c).isSome = true := by
    intro c hc
    rw [normalize_eq] at hc
    exact (List.mem_filter.mp hc).2
  have hpn : path (normalize name) = path (lowerName name) := by
    rw [normalize_eq]; exact path_filter _
  constructor
  · intro h
    rw [← hpn] at h
    have := congrArg (List.map (fun i : Fin 26 => i.val + 97)) h
    rwa [path_unpath _ hn, path_unpath _ (lowerName_isSome hk)] at this
  · intro h
    rw [← hpn, h]

theorem Trie.search_insertAll (ops : List (String × Int)) (k : String) (hk : lettersOnly k) :
    Trie.search (Trie.insertAll Trie.new ops) k = amountFor (lowerName k) ops := by
  unfold Trie.search
  rw [TrieNode.searchFrom_eq _ _ (lowerName_isSome hk), Trie.countAt_insertAll,
    Trie.endAt_insertAll]
  have hfilter : ops.filter (fun kv => path (lowerName kv.1) = path (lowerName k)) =
      ops.filter (fun kv => normalize kv.1 = lowerName k) := by
    apply List.filter_congr
    intro kv _
    simp only [decide_eq_decide]
    exact path_eq_iff kv.1 k hk
  simp only [Trie.new, TrieNode.countAt_new, TrieNode.endAt_new, Bool.false_or, zero_add]
  unfold amountFor
  rw [hfilter]
  split
  · rfl
  · rename_i hany
    have hnil : ops.filter (fun kv => path (lowerName kv.1) = path (lowerName k)) = [] := by
      rw [List.filter_eq_nil_iff]
      intro kv hkv hp
      apply hany
      rw [List.any_eq_true]
      exact ⟨kv, hkv, hp⟩
    rw [← hfilter, hnil]
    rfl

theorem tolower_sameLetter {a b : Nat} (h : sameLetter a b = true) : tolower a = tolower b := by
  unfold sameLetter at h
  simp only [Bool.or_eq_true, Bool.and_eq_true, beq_iff_eq, decide_eq_true_eq] at h
  unfold tolower
  rcases h with (h | h) | h
  · rw [h]
  · obtain ⟨⟨h1, h2⟩, h3⟩ := h
    subst h3
    have : ¬ (a + 32 ≤ 90) := by omega
    simp [h1, h2, this]
  · obtain ⟨⟨h1, h2⟩, h3⟩ := h
    subst h3
    have : ¬ (b + 32 ≤ 90) := by omega
    simp [h1, h2, this]

theorem map_tolower_caseVariantCodes :
    ∀ (as bs : List Nat), caseVariantCodes as bs = true → as.map tolower = bs.map tolower := by
  intro as
  induction as with
  | nil =>
    intro bs h
    cases bs with
    | nil => rfl
    | cons b bs => simp [caseVariantCodes] at h
  | cons a as ih =>
    intro bs h
    cases bs with
    | nil => simp [caseVariantCodes] at h
    | cons b bs =>
      simp only [caseVariantCodes, Bool.and_eq_true] at h
      simp only [List.map_cons, tolower_sameLetter h.1, ih bs h.2]

theorem lowerName_caseVariant {k k' : String} (h : caseVariant k k' = true) :
    lowerName k = lowerName k' := by
  have := map_tolower_caseVariantCodes _ _ h
  simpa [lowerName, List.map_map] using this

/-! ## Lemmas: probe positions -/

theorem mod_of_lt_two_mul {a c : Nat} (h : a < 2 * c) :
    a % c = if a < c then a else a - c := by
  split
  · rename_i h1; exact Nat.mod_eq_of_lt h1
  · rename_i h1
    rw [Nat.mod_eq_sub_mod (by omega)]
    exact Nat.mod_eq_of_lt (by omega)

theorem probe_pos_lt {h j c : Nat} (hc : 0 < c) : (h + j) % c < c := Nat.mod_lt _ hc

theorem probe_pos_inj {h j j' c : Nat} (hh : h < c) (hj : j < c) (hj' : j' < c)
    (heq : (h + j) % c = (h + j') % c) : j = j' := by
  rw [mod_of_lt_two_mul (by omega), mod_of_lt_two_mul (by omega)] at heq
  split at heq <;> split at heq <;> omega

theorem probe_pos_surj {h i c : Nat} (hh : h < c) (hi : i < c) :
    ∃ d, d < c ∧ (h + d) % c = i := by
  by_cases hle : h ≤ i
  · refine ⟨i - h, by omega, ?_⟩
    rw [mod_of_lt_two_mul (by omega)]
    split <;> omega
  · refine ⟨i + c - h, by omega, ?_⟩
    rw [mod_of_lt_two_mul (by omega)]
    split <;> omega

theorem probe_pos_start {h c : Nat} (hh : h < c) : (h + 0) % c = h := by
  simpa using Nat.mod_eq_of_lt hh

theorem probe_pos_wrap {h j c : Nat} (hh : h < c) (hj : j < c) :
    (h + j + 1) % c = h ↔ j + 1 = c := by
  constructor
  · intro heq
    by_contra hne
    have h1 : j + 1 < c := by omega
    have h2 : (h + (j + 1)) % c = (h + 0) % c := by
      rw [probe_pos_start hh, ← Nat.add_assoc]
      exact heq
    have := probe_pos_inj hh h1 (by omega) h2
    omega
  · intro heq
    rw [Nat.add_assoc, heq, Nat.add_mod_right]
    exact Nat.mod_eq_of_lt hh

/-! ## Lemmas: the probe loops -/

namespace HashTable

theorem hashExact_lt (t : HashTable) (key : String) (hc : 0 < t.capacity) :
    t.hashExact key < t.capacity := by
  unfold hashExact
  have : ∀ (cs : List Char) (init : Nat), init < t.capacity →
      cs.foldl (fun hash c => (hash * 31 + c.toNat) % t.capacity) init < t.capacity := by
    intro cs
    induction cs with
    | nil => intro init h; simpa using h
    | cons c cs ih =>
      intro init _
      simp only [List.foldl_cons]
      exact ih _ (Nat.mod_lt _ hc)
  exact this _ _ hc

theorem slot_exists (t : HashTable) (hlen : t.table.length = t.capacity) {i : Nat}
    (hi : i < t.capacity) : ∃ e, t.table[i]? = some e :=
  ⟨t.table[i], List.getElem?_eq_getElem (by omega)⟩

theorem slot_lt (t : HashTable) (hlen : t.table.length = t.capacity) {i : Nat} {e : Entry}
    (h : t.table[i]? = some e) : i < t.capacity := by
  rw [← hlen]
  exact (List.getElem?_eq_some_iff.mp h).1

/-- The probe loop of `insert` from position `j` of the probe sequence: it stops at the
first position whose slot does not block the key, or reports a full cycle when every
remaining slot blocks it. -/
theorem insertProbe_spec (t : HashTable) (k : String) (h : Nat)
    (hlen : t.table.length = t.capacity) (hh : h < t.capacity) :
    ∀ steps j, steps + j = t.capacity → j < t.capacity →
      (∃ d, j ≤ d ∧ d < t.capacity ∧
        t.insertProbe k h steps ((h + j) % t.capacity) =
          some (ProbeResult.found ((h + d) % t.capacity)) ∧
        (∃ e, t.table[(h + d) % t.capacity]? = some e ∧ e.blocks k = false) ∧
        ∀ j', j ≤ j' → j' < d →
          ∃ e, t.table[(h + j') % t.capacity]? = some e ∧ e.blocks k = true) ∨
      (t.insertProbe k h steps ((h + j) % t.capacity) = some ProbeResult.fullCycle ∧
        ∀ j', j ≤ j' → j' < t.capacity →
          ∃ e, t.table[(h + j') % t.capacity]? = some e ∧ e.blocks k = true) := by
  intro steps
  induction steps with
  | zero => intro j h1 h2; omega
  | succ n ih =>
    intro j h1 h2
    have hc : 0 < t.capacity := by omega
    obtain ⟨e, he⟩ := slot_exists t hlen (probe_pos_lt (h := h) (j := j) hc)
    by_cases hb : e.blocks k = true
    · have hb' : (e.occupied && !e.deleted && e.key != k) = true := hb
      simp only [insertProbe, he, hb', if_true, Nat.mod_add_mod]
      by_cases hj : j + 1 = t.capacity
      · right
        rw [if_pos ((probe_pos_wrap hh h2).mpr hj)]
        refine ⟨rfl, ?_⟩
        intro j' hj1 hj2
        have : j' = j := by omega
        subst this
        exact ⟨e, he, hb⟩
      · rw [if_neg (fun hw => hj ((probe_pos_wrap hh h2).mp hw))]
        have hstep : ∀ j', j ≤ j' → (j + 1 ≤ j' → ∃ e, t.table[(h + j') % t.capacity]? = some e ∧
            e.blocks k = true) → ∃ e, t.table[(h + j') % t.capacity]? = some e ∧
            e.blocks k = true := by
          intro j' hj1 hrest
          by_cases hjj : j' = j
          · subst hjj; exact ⟨e, he, hb⟩
          · exact hrest (by omega)
        rcases ih (j + 1) (by omega) (by omega) with ⟨d, hd1, hd2, hrun, hstop, hpre⟩ | ⟨hrun, hall⟩
        · left
          refine ⟨d, by omega, hd2, ?_, hstop, ?_⟩
          · rw [← Nat.add_assoc] at hrun; exact hrun
          · intro j' hj1 hj2
            exact hstep j' hj1 (fun h3 => hpre j' h3 hj2)
        · right
          refine ⟨?_, ?_⟩
          · rw [← Nat.add_assoc] at hrun; exact hrun
          · intro j' hj1 hj2
            exact hstep j' hj1 (fun h3 => hall j' h3 hj2)
    · left
      have hb' : ¬ ((e.occupied && !e.deleted && e.key != k) = true) := hb
      refine ⟨j, Nat.le_refl _, h2, ?_, ⟨e, he, by simpa using hb⟩, ?_⟩
      · simp only [insertProbe, he]
        rw [if_neg hb']
      · intro j' hj1 hj2; omega

/-- The probe loop of `get` from position `j` of the probe sequence: it returns the value
of the first slot that is occupied, not deleted and holds the key, provided every slot
before it is occupied; it returns 0 at the first slot that was never occupied, or after
a full cycle. -/
theorem getProbe_spec (t : HashTable) (k : String) (h : Nat)
    (hlen : t.table.length = t.capacity) (hh : h < t.capacity) :
    ∀ steps j, steps + j = t.capacity → j < t.capacity →
      (∃ d e, j ≤ d ∧ d < t.capacity ∧ t.table[(h + d) % t.capacity]? = some e ∧
        e.occupied = true ∧ e.hit k = true ∧
        t.getProbe k h steps ((h + j) % t.capacity) = some e.value ∧
        ∀ j', j ≤ j' → j' < d →
          ∃ e', t.table[(h + j') % t.capacity]? = some e' ∧ e'.occupied = true ∧
            e'.hit k = false) ∨
      (t.getProbe k h steps ((h + j) % t.capacity) = some 0 ∧
        ((∃ d e, j ≤ d ∧ d < t.capacity ∧ t.table[(h + d) % t.capacity]? = some e ∧
            e.occupied = false ∧
            ∀ j', j ≤ j' → j' < d →
              ∃ e', t.table[(h + j') % t.capacity]? = some e' ∧ e'.occupied = true ∧
                e'.hit k = false) ∨
          ∀ j', j ≤ j' → j' < t.capacity →
            ∃ e', t.table[(h + j') % t.capacity]? = some e' ∧ e'.occupied = true ∧
              e'.hit k = false)) := by
  intro steps
  induction steps with
  | zero => intro j h1 h2; omega
  | succ n ih =>
    intro j h1 h2
    have hc : 0 < t.capacity := by omega
    obtain ⟨e, he⟩ := slot_exists t hlen (probe_pos_lt (h := h) (j := j) hc)
    by_cases hocc : e.occupied = true
    · by_cases hhit : e.hit k = true
      · left
        have hhit' : (!e.deleted && e.key == k) = true := hhit
        refine ⟨j, e, Nat.le_refl _, h2, he, hocc, hhit, ?_, ?_⟩
        · simp only [getProbe, he, hocc, hhit', if_true]
        · intro j' hj1 hj2; omega
      · have hhit' : ¬ ((!e.deleted && e.key == k) = true) := hhit
        have hhitf : e.hit k = false := by simpa using hhit
        simp only [getProbe, he, hocc, hhit', if_true, if_false, Nat.mod_add_mod]
        have hstep : ∀ j', j ≤ j' →
            (j + 1 ≤ j' → ∃ e', t.table[(h + j') % t.capacity]? = some e' ∧
              e'.occupied = true ∧ e'.hit k = false) →
            ∃ e', t.table[(h + j') % t.capacity]? = some e' ∧ e'.occupied = true ∧
              e'.hit k = false := by
          intro j' hj1 hrest
          by_cases hjj : j' = j
          · subst hjj; exact ⟨e, he, hocc, hhitf⟩
          · exact hrest (by omega)
        by_cases hj : j + 1 = t.capacity
        · right
          rw [if_pos ((probe_pos_wrap hh h2).mpr hj)]
          refine ⟨rfl, Or.inr ?_⟩
          intro j' hj1 hj2
          exact hstep j' hj1 (fun h3 => by omega)
        · rw [if_neg (fun hw => hj ((probe_pos_wrap hh h2).mp hw))]
          rcases ih (j + 1) (by omega) (by omega) with
            ⟨d, e', hd1, hd2, hslot, ho, hm, hrun, hpre⟩ | ⟨hrun, hrest⟩
          · left
            refine ⟨d, e', by omega, hd2, hslot, ho, hm, ?_, ?_⟩
            · rw [← Nat.add_assoc] at hrun; exact hrun
            · intro j' hj1 hj2
              exact hstep j' hj1 (fun h3 => hpre j' h3 hj2)
          · right
            refine ⟨?_, ?_⟩
            · rw [← Nat.add_assoc] at hrun; exact hrun
            · rcases hrest with ⟨d, e', hd1, hd2, hslot, ho, hpre⟩ | hall
              · left
                refine ⟨d, e', by omega, hd2, hslot, ho, ?_⟩
                intro j' hj1 hj2
                exact hstep j' hj1 (fun h3 => hpre j' h3 hj2)
              · right
                intro j' hj1 hj2
                exact hstep j' hj1 (fun h3 => hall j' h3 hj2)
    · right
      have hocc' : e.occupied = false := by simpa using hocc
      refine ⟨?_, Or.inl ⟨j, e, Nat.le_refl _, h2, he, hocc', ?_⟩⟩
      · simp only [getProbe, he, hocc']
        rfl
      · intro j' hj1 hj2; omega

theorem get_eq_getProbe (t : HashTable) (k : String) (hpos : 0 < t.capacity) :
    t.getExact k = t.getProbe k (t.hashExact k) (t.capacity)
      ((t.hashExact k + 0) % t.capacity) := by
  rw [probe_pos_start (hashExact_lt t k hpos)]
  rfl

theorem live_of_hit {e : Entry} {k : String} (ho : e.occupied = true) (hh : e.hit k = true) :
    e.live = true ∧ e.key = k := by
  unfold Entry.hit at hh
  unfold Entry.live
  simp only [Bool.and_eq_true, beq_iff_eq] at hh
  simp [ho, hh.1, hh.2]

/-- `get` always returns: the value of a current entry for the key, or 0. -/
theorem get_cases (t : HashTable) (k : String) (hlen : t.table.length = t.capacity)
    (hpos : 0 < t.capacity) : (∃ v, t.getExact k = some v ∧ t.Holds k v) ∨ t.getExact k = some 0 := by
  have hh := hashExact_lt t k hpos
  rw [get_eq_getProbe t k hpos]
  rcases getProbe_spec t k _ hlen hh t.capacity 0 (by omega) hpos with
    ⟨d, e, _, _, hslot, ho, hm, hrun, _⟩ | ⟨hrun, _⟩
  · left
    obtain ⟨hl, hk⟩ := live_of_hit ho hm
    exact ⟨e.value, hrun, _, e, hslot, hl, hk, rfl⟩
  · right; exact hrun

theorem get_of_not_holds (t : HashTable) (k : String) (hlen : t.table.length = t.capacity)
    (hpos : 0 < t.capacity) (habs : ∀ v, ¬ t.Holds k v) : t.getExact k = some 0 := by
  rcases get_cases t k hlen hpos with ⟨v, _, hv⟩ | h
  · exact absurd hv (habs v)
  · exact h

theorem Inv.live_eq {t : HashTable} (hinv : t.Inv) {i : Nat} {e : Entry}
    (h : t.table[i]? = some e) : e.live = e.occupied := by
  unfold Entry.live
  rw [hinv.noTomb i e h]
  simp

/-- Under the invariant `get` finds every stored key. -/
theorem get_of_holds (t : HashTable) (hinv : t.Inv) (k : String) (v : Int)
    (hold : t.Holds k v) : t.getExact k = some v := by
  have hh := hashExact_lt t k hinv.pos
  obtain ⟨i, e, he, hl, hk, hv⟩ := hold
  have hocc : e.occupied = true := by rw [← hinv.live_eq he]; exact hl
  have hi := slot_lt t hinv.len he
  obtain ⟨d0, hd0, hpos0⟩ := probe_pos_surj hh hi
  have hhit : e.hit k = true := by
    unfold Entry.hit
    rw [hinv.noTomb i e he, hk]
    simp
  rw [get_eq_getProbe t k hinv.pos]
  rcases getProbe_spec t k _ hinv.len hh t.capacity 0 (by omega) hinv.pos with
    ⟨d, e', _, hd, hslot, ho, hm, hrun, _⟩ | ⟨_, hrest⟩
  · rw [hrun]
    have hkey := (live_of_hit ho hm).2
    have := hinv.distinct _ _ e' e hslot he ho hocc (hkey.trans hk.symm)
    rw [this, he] at hslot
    cases hslot
    rw [hv]
  · exfalso
    rcases hrest with ⟨d, e', _, hd, hslot, ho, hpre⟩ | hall
    · rcases Nat.lt_trichotomy d0 d with hlt | heq | hgt
      · obtain ⟨e'', hs, _, hm⟩ := hpre d0 (Nat.zero_le _) hlt
        rw [hpos0, he] at hs
        cases hs
        rw [hhit] at hm
        cases hm
      · subst heq
        rw [hpos0, he] at hslot
        cases hslot
        rw [hocc] at ho
        cases ho
      · have hpath := hinv.chain k d0 e hd0 (by rw [hpos0]; exact he) hocc hk d hgt
        obtain ⟨e'', hs, ho''⟩ := hpath
        rw [hslot] at hs
        cases hs
        rw [ho] at ho''
        cases ho''
    · obtain ⟨e'', hs, _, hm⟩ := hall d0 (Nat.zero_le _) hd0
      rw [hpos0, he] at hs
      cases hs
      rw [hhit] at hm
      cases hm

/-- When the probe of `insert` stops at position `d`, no other slot holds the key. -/
theorem only_slot (t : HashTable) (hinv : t.Inv) (k : String) (d : Nat) (hd : d < t.capacity)
    (e0 : Entry) (he0 : t.table[(t.hashExact k + d) % t.capacity]? = some e0)
    (hb0 : e0.blocks k = false)
    (hpre : ∀ j', j' < d →
      ∃ e, t.table[(t.hashExact k + j') % t.capacity]? = some e ∧ e.blocks k = true) :
    ∀ (j : Nat) (e' : Entry), j ≠ (t.hashExact k + d) % t.capacity →
      t.table[j]? = some e' → e'.occupied = true → e'.key ≠ k := by
  intro j e' hj he' ho' hk'
  have hh := hashExact_lt t k hinv.pos
  obtain ⟨d', hd', hpos'⟩ := probe_pos_surj hh (slot_lt t hinv.len he')
  rcases Nat.lt_trichotomy d' d with hlt | heq | hgt
  · obtain ⟨e, hs, hb⟩ := hpre d' hlt
    rw [hpos', he'] at hs
    cases hs
    unfold Entry.blocks at hb
    simp [hk'] at hb
  · subst heq; exact hj hpos'.symm
  · obtain ⟨e, hs, ho⟩ := hinv.chain k d' e' hd' (by rw [hpos']; exact he') ho' hk' d hgt
    rw [he0] at hs
    cases hs
    have hdel := hinv.noTomb _ _ he0
    have hk0 : e0.key = k := by
      unfold Entry.blocks at hb0
      simpa [ho, hdel] using hb0
    exact hj (hinv.distinct _ _ e' e0 he' he0 ho' ho (hk'.trans hk0.symm))

theorem countP_live_pos {l : List Entry} {i : Nat} {e : Entry} (h : l[i]? = some e)
    (hl : e.live = true) : 0 < l.countP Entry.live := by
  rw [List.countP_pos_iff]
  exact ⟨e, List.mem_iff_getElem?.mpr ⟨i, h⟩, hl⟩

/-- The write at the end of `insert`, at the slot where the probe stopped: the invariant is
kept, and the table afterwards stores `k ↦ v` and every other key as before. -/
theorem store_spec (t : HashTable) (hinv : t.Inv) (k : String) (v : Int) (d : Nat)
    (hd : d < t.capacity) (e0 : Entry)
    (he0 : t.table[(t.hashExact k + d) % t.capacity]? = some e0)
    (hb0 : e0.blocks k = false)
    (hpre : ∀ j', j' < d →
      ∃ e, t.table[(t.hashExact k + j') % t.capacity]? = some e ∧ e.blocks k = true) :
    ∃ t', t.store ((t.hashExact k + d) % t.capacity) k v = some t' ∧ t'.Inv ∧
      t'.capacity = t.capacity ∧
      ((∃ v0, t.Holds k v0) → t'.size = t.size) ∧
      ((∀ v0, ¬ t.Holds k v0) → t'.size = t.size + 1) ∧
      (∀ k' v', t'.Holds k' v' ↔ (k' = k ∧ v' = v) ∨ (k' ≠ k ∧ t.Holds k' v')) := by
  have hh := hashExact_lt t k hinv.pos
  have honly := only_slot t hinv k d hd e0 he0 hb0 hpre
  generalize hi_def : (t.hashExact k + d) % t.capacity = i at he0 honly
  have hi : i < t.table.length := by rw [hinv.len]; exact slot_lt t hinv.len he0
  have hdel0 : e0.deleted = false := hinv.noTomb i e0 he0
  have hcase : e0.occupied = false ∨ (e0.occupied = true ∧ e0.key = k) := by
    unfold Entry.blocks at hb0
    rw [hdel0] at hb0
    cases hocc : e0.occupied
    · exact Or.inl rfl
    · right; simpa [hocc] using hb0
  have hget : ∀ j, (t.table.set i ⟨k, v, true, false⟩)[j]? =
      if i = j then some ⟨k, v, true, false⟩ else t.table[j]? := by
    intro j
    rw [List.getElem?_set]
    simp [hi]
  have hi_eq : t.table[i] = e0 := by
    have := List.getElem?_eq_getElem hi
    rw [he0] at this
    exact (Option.some.inj this).symm
  refine ⟨⟨t.table.set i ⟨k, v, true, false⟩, t.capacity,
      if !e0.occupied || e0.deleted then t.size + 1 else t.size⟩, ?_, ?_, rfl, ?_, ?_, ?_⟩
  · simp only [store, he0]
  · refine ⟨?_, hinv.pos, ?_, ?_, ?_, ?_⟩
    · simp only [List.length_set]; exact hinv.len
    · intro j e hj
      simp only [hget] at hj
      split at hj
      · cases hj; rfl
      · exact hinv.noTomb j e hj
    · simp only
      rw [List.countP_set Entry.live t.table i _ hi, hi_eq, hdel0, ← hinv.sizeEq]
      rcases hcase with ho | ⟨ho, _⟩
      · simp [Entry.live, ho]
      · have hl : e0.live = true := by simp [Entry.live, ho, hdel0]
        have := countP_live_pos he0 hl
        rw [← hinv.sizeEq] at this
        simp [Entry.live, ho, hdel0]
        omega
    · intro j1 j2 e1 e2 h1 h2 ho1 ho2 hkey
      simp only [hget] at h1 h2
      split at h1 <;> split at h2
      · omega
      · rename_i hj1 hj2
        cases h1
        exact absurd hkey.symm (honly j2 e2 (fun h => hj2 h.symm) h2 ho2)
      · rename_i hj1 hj2
        cases h2
        exact absurd hkey (honly j1 e1 (fun h => hj1 h.symm) h1 ho1)
      · exact hinv.distinct j1 j2 e1 e2 h1 h2 ho1 ho2 hkey
    · intro k2 d2 e2 hd2 hs2 ho2 hk2 j hj
      have hhc : ∀ key, HashTable.hashExact ⟨t.table.set i ⟨k, v, true, false⟩, t.capacity,
          if !e0.occupied || e0.deleted then t.size + 1 else t.size⟩ key = t.hashExact key :=
        fun key => rfl
      simp only [hhc, hget] at hs2 ⊢
      have hold : ∃ e', t.table[(t.hashExact k2 + j) % t.capacity]? = some e' ∧
          e'.occupied = true := by
        split at hs2
        · rename_i hpos2
          cases hs2
          simp only at hk2
          subst hk2
          have hdd : d2 = d := probe_pos_inj hh hd2 hd (by rw [hi_def]; exact hpos2.symm)
          subst hdd
          obtain ⟨e, hs, hb⟩ := hpre j hj
          refine ⟨e, hs, ?_⟩
          unfold Entry.blocks at hb
          simp only [Bool.and_eq_true] at hb
          exact hb.1.1
        · exact hinv.chain k2 d2 e2 hd2 hs2 ho2 hk2 j hj
      obtain ⟨e', hs', ho'⟩ := hold
      split
      · exact ⟨_, rfl, rfl⟩
      · exact ⟨e', hs', ho'⟩
  · rintro ⟨v0, j, e, hj, hl, hk, _⟩
    have ho : e.occupied = true := by rw [← hinv.live_eq hj]; exact hl
    by_cases hji : j = i
    · subst hji
      rw [he0] at hj
      cases hj
      simp [ho, hdel0]
    · exact absurd hk (honly j e hji hj ho)
  · intro habs
    have ho : e0.occupied = false := by
      rcases hcase with ho | ⟨ho, hk⟩
      · exact ho
      · exact absurd ⟨i, e0, he0, by simp [Entry.live, ho, hdel0], hk, rfl⟩ (habs e0.value)
    simp [ho]
  · intro k' v'
    constructor
    · rintro ⟨j, e, hj, hl, hk, hv⟩
      simp only [hget] at hj
      split at hj
      · cases hj
        exact Or.inl ⟨hk.symm, hv.symm⟩
      · rename_i hji
        have ho : e.occupied = true := by rw [← hinv.live_eq hj]; exact hl
        right
        refine ⟨?_, j, e, hj, hl, hk, hv⟩
        rw [← hk]
        exact honly j e (fun h => hji h.symm) hj ho
    · rintro (⟨hk, hv⟩ | ⟨hne, j, e, hj, hl, hk, hv⟩)
      · refine ⟨i, ⟨k, v, true, false⟩, ?_, rfl, hk.symm, hv.symm⟩
        simp only [hget, if_true]
      · have hji : i ≠ j := by
          intro h
          subst h
          rw [he0] at hj
          cases hj
          rcases hcase with ho | ⟨_, hk0⟩
          · simp [Entry.live, ho] at hl
          · exact hne (hk.symm.trans hk0)
        refine ⟨j, e, ?_, hl, hk, hv⟩
        simp only [hget, if_neg hji]
        exact hj

theorem not_holds_new (c : Nat) (k : String) (v : Int) : ¬ (HashTable.new c).Holds k v := by
  rintro ⟨i, e, he, hl, _, _⟩
  simp only [HashTable.new, List.getElem?_replicate] at he
  split at he
  · cases he; simp [Entry.live, Entry.empty] at hl
  · cases he

theorem inv_new (c : Nat) (hc : 0 < c) : (HashTable.new c).Inv := by
  have hslot : ∀ (i : Nat) (e : Entry), (HashTable.new c).table[i]? = some e → e = Entry.empty := by
    intro i e he
    simp only [HashTable.new, List.getElem?_replicate] at he
    split at he
    · cases he; rfl
    · cases he
  refine ⟨by simp [HashTable.new], hc, ?_, ?_, ?_, ?_⟩
  · intro i e he; rw [hslot i e he]; rfl
  · simp [HashTable.new, List.countP_replicate, Entry.live, Entry.empty]
  · intro i j e1 e2 h1 _ ho1
    rw [hslot i e1 h1] at ho1
    simp [Entry.empty] at ho1
  · intro k d e _ hs ho
    rw [hslot _ e hs] at ho
    simp [Entry.empty] at ho

/-- With a free slot in the table the probe loop of `insert` stops at a slot. -/
theorem insertProbe_found (t : HashTable) (hinv : t.Inv) (hroom : t.size < t.capacity)
    (k : String) :
    ∃ d e0, d < t.capacity ∧
      t.insertProbe k (t.hashExact k) t.capacity (t.hashExact k) =
        some (ProbeResult.found ((t.hashExact k + d) % t.capacity)) ∧
      t.table[(t.hashExact k + d) % t.capacity]? = some e0 ∧ e0.blocks k = false ∧
      ∀ j', j' < d →
        ∃ e, t.table[(t.hashExact k + j') % t.capacity]? = some e ∧ e.blocks k = true := by
  have hh := hashExact_lt t k hinv.pos
  have hspec := insertProbe_spec t k _ hinv.len hh t.capacity 0 (by omega) hinv.pos
  rw [probe_pos_start hh] at hspec
  rcases hspec with ⟨d, _, hd, hrun, ⟨e0, he0, hb0⟩, hpre⟩ | ⟨_, hall⟩
  · exact ⟨d, e0, hd, hrun, he0, hb0, fun j' hj' => hpre j' (Nat.zero_le _) hj'⟩
  · exfalso
    have hfull : t.table.countP Entry.live = t.table.length := by
      rw [List.countP_eq_length]
      intro a ha
      obtain ⟨n, hn⟩ := List.mem_iff_getElem?.mp ha
      obtain ⟨d, hd, hpos⟩ := probe_pos_surj hh (slot_lt t hinv.len hn)
      obtain ⟨e, hs, hb⟩ := hall d (Nat.zero_le _) hd
      rw [hpos, hn] at hs
      cases hs
      unfold Entry.blocks at hb
      simp only [Bool.and_eq_true] at hb
      simp only [Entry.live, Bool.and_eq_true]
      exact hb.1
    have := hinv.sizeEq
    have := hinv.len
    omega

/-- The part of `insert` after the load-factor test, on a table `t1` with a free slot. -/
theorem insert_after (fuel : Nat) (t t1 : HashTable) (k : String) (v : Int)
    (hres : (if 10 * t.size > 7 * t.capacity then resizeWithExact (insertExact fuel) t else some t) =
      some t1)
    (hinv : t1.Inv) (hroom : t1.size < t1.capacity) :
    ∃ t', insertExact (fuel + 1) t k v = some t' ∧ t'.capacity = t1.capacity ∧
      InsertPost t1 t' k v := by
  obtain ⟨d, e0, hd, hrun, he0, hb0, hpre⟩ := insertProbe_found t1 hinv hroom k
  obtain ⟨t', hst, hinv', hcap, hs1, hs2, hholds⟩ := store_spec t1 hinv k v d hd e0 he0 hb0 hpre
  refine ⟨t', ?_, hcap, ⟨hinv', hs1, hs2, hholds⟩⟩
  simp only [insertExact, hres, hrun]
  exact hst

/-- `insert` on a table whose load factor is at most 0.7 writes without resizing. -/
theorem insert_direct (fuel : Nat) (t : HashTable) (hinv : t.Inv)
    (hload : 10 * t.size ≤ 7 * t.capacity) (k : String) (v : Int) :
    ∃ t', insertExact (fuel + 1) t k v = some t' ∧ t'.capacity = t.capacity ∧
      InsertPost t t' k v := by
  have hpos := hinv.pos
  apply insert_after fuel t t k v _ hinv (by omega)
  rw [if_neg (by omega)]

theorem refillStep_eq (ins : HashTable → String → Int → Option HashTable) (acc : HashTable)
    (e : Entry) : refillStep ins acc e = if e.live then ins acc e.key e.value else some acc :=
  rfl

/-- The re-insertion loop of `resize` over a slot list `es` whose current entries have
distinct keys not yet in the table `acc`, which has room for all of them below the
load-factor threshold: every current entry of `es` is added to `acc`. -/
theorem refill_spec (fuel : Nat) :
    ∀ (es : List Entry) (acc : HashTable), acc.Inv →
      2 * (acc.size + es.length) ≤ acc.capacity → DistinctLive es →
      (∀ e ∈ es, e.live = true → ∀ v, ¬ acc.Holds e.key v) →
      ∃ t', es.foldlM (refillStep (insertExact (fuel + 1))) acc = some t' ∧ t'.Inv ∧
        t'.capacity = acc.capacity ∧ t'.size = acc.size + es.countP Entry.live ∧
        ∀ k v, t'.Holds k v ↔ acc.Holds k v ∨ ∃ e ∈ es, e.live = true ∧ e.key = k ∧ e.value = v := by
  intro es
  induction es with
  | nil =>
    intro acc hinv _ _ _
    exact ⟨acc, rfl, hinv, rfl, by simp, by simp⟩
  | cons e es ih =>
    intro acc hinv hsize hdist hfresh
    have hdist' : DistinctLive es := (List.pairwise_cons.mp hdist).2
    have hhead := (List.pairwise_cons.mp hdist).1
    simp only [List.length_cons] at hsize
    by_cases hl : e.live = true
    · obtain ⟨acc', hins, hcap, hpost⟩ :=
        insert_direct fuel acc hinv (by omega) e.key e.value
      have hsz : acc'.size = acc.size + 1 :=
        hpost.sizeNew (hfresh e (List.mem_cons_self _ _) hl)
      obtain ⟨t', hrun, hinv', hcap', hsize', hholds'⟩ := ih acc' hpost.inv
        (by rw [hsz, hcap]; omega) hdist'
        (by
          intro e' he' hl' v hv
          rcases (hpost.holds _ _).mp hv with ⟨hk, _⟩ | ⟨_, hold⟩
          · exact hhead e' he' hl hl' hk.symm
          · exact hfresh e' (List.mem_cons_of_mem _ he') hl' v hold)
      refine ⟨t', ?_, hinv', hcap'.trans hcap, ?_, ?_⟩
      · simp only [List.foldlM_cons, refillStep_eq, hl, if_true, hins]
        exact hrun
      · rw [hsize', hsz, List.countP_cons_of_pos Entry.live es hl]; omega
      · intro k v
        rw [hholds', hpost.holds]
        constructor
        · rintro ((⟨hk, hv⟩ | ⟨_, hold⟩) | ⟨e', he', h'⟩)
          · exact Or.inr ⟨e, List.mem_cons_self _ _, hl, hk.symm, hv.symm⟩
          · exact Or.inl hold
          · exact Or.inr ⟨e', List.mem_cons_of_mem _ he', h'⟩
        · rintro (hold | ⟨e', he', hl', hk', hv'⟩)
          · left; right
            refine ⟨?_, hold⟩
            intro hk
            subst hk
            exact hfresh e (List.mem_cons_self _ _) hl v hold
          · rcases List.mem_cons.mp he' with heq | hmem
            · subst heq
              exact Or.inl (Or.inl ⟨hk'.symm, hv'.symm⟩)
            · exact Or.inr ⟨e', hmem, hl', hk', hv'⟩
    · obtain ⟨t', hrun, hinv', hcap', hsize', hholds'⟩ := ih acc hinv (by omega) hdist'
        (fun e' he' hl' => hfresh e' (List.mem_cons_of_mem _ he') hl')
      refine ⟨t', ?_, hinv', hcap', ?_, ?_⟩
      · simp only [List.foldlM_cons, refillStep_eq, hl]
        exact hrun
      · rw [hsize', List.countP_cons_of_neg Entry.live es hl]
      · intro k v
        rw [hholds']
        constructor
        · rintro (hold | ⟨e', he', h'⟩)
          · exact Or.inl hold
          · exact Or.inr ⟨e', List.mem_cons_of_mem _ he', h'⟩
        · rintro (hold | ⟨e', he', hl', hk', hv'⟩)
          · exact Or.inl hold
          · rcases List.mem_cons.mp he' with heq | hmem
            · subst heq; exact absurd hl' hl
            · exact Or.inr ⟨e', hmem, hl', hk', hv'⟩

theorem resizeWith_eq (ins : HashTable → String → Int → Option HashTable) (t : HashTable) :
    resizeWithExact ins t = t.table.foldlM (refillStep ins) (HashTable.new (t.capacity * 2)) :=
  rfl

theorem holds_iff_mem (t : HashTable) (k : String) (v : Int) :
    t.Holds k v ↔ ∃ e ∈ t.table, e.live = true ∧ e.key = k ∧ e.value = v := by
  constructor
  · rintro ⟨i, e, he, h⟩
    exact ⟨e, List.mem_iff_getElem?.mpr ⟨i, he⟩, h⟩
  · rintro ⟨e, he, h⟩
    obtain ⟨i, hi⟩ := List.mem_iff_getElem?.mp he
    exact ⟨i, e, hi, h⟩

/-- `resize` on a table whose current entries have distinct keys: the capacity doubles,
the result satisfies the invariant (so it has no deleted slot), `size` is the number of
current entries and the stored contents are unchanged. -/
theorem resizeWith_spec (fuel : Nat) (t : HashTable) (hlen : t.table.length = t.capacity)
    (hpos : 0 < t.capacity) (hdist : DistinctLive t.table) :
    ∃ t', resizeWithExact (insertExact (fuel + 1)) t = some t' ∧ t'.Inv ∧
      t'.capacity = t.capacity * 2 ∧ t'.size = t.table.countP Entry.live ∧
      ∀ k v, t'.Holds k v ↔ t.Holds k v := by
  obtain ⟨t', hrun, hinv', hcap', hsize', hholds'⟩ :=
    refill_spec fuel t.table (HashTable.new (t.capacity * 2)) (inv_new _ (by omega))
      (by simp only [HashTable.new]; omega) hdist
      (fun e _ _ v => not_holds_new _ _ v)
  refine ⟨t', by rw [resizeWith_eq]; exact hrun, hinv', hcap', ?_, ?_⟩
  · rw [hsize']; simp [HashTable.new]
  · intro k v
    rw [hholds']
    constructor
    · rintro (h | h)
      · exact absurd h (not_holds_new _ _ _)
      · exact (holds_iff_mem t k v).mpr h
    · intro h
      exact Or.inr ((holds_iff_mem t k v).mp h)

theorem Inv.distinctLive {t : HashTable} (hinv : t.Inv) : DistinctLive t.table := by
  unfold DistinctLive
  rw [List.pairwise_iff_getElem]
  intro i j hi hj hij hl1 hl2 hkey
  have h1 : t.table[i]? = some t.table[i] := List.getElem?_eq_getElem hi
  have h2 : t.table[j]? = some t.table[j] := List.getElem?_eq_getElem hj
  rw [hinv.live_eq h1] at hl1
  rw [hinv.live_eq h2] at hl2
  have := hinv.distinct i j _ _ h1 h2 hl1 hl2 hkey
  omega

/-- One `insert` on a table that satisfies the invariant, with fuel for one `resize`. -/
theorem insert_spec (t : HashTable) (hinv : t.Inv) (k : String) (v : Int) (fuel : Nat)
    (hf : 2 ≤ fuel) :
    ∃ t', insertExact fuel t k v = some t' ∧ InsertPost t t' k v ∧
      (10 * t.size ≤ 7 * t.capacity → t'.capacity = t.capacity) ∧
      (7 * t.capacity < 10 * t.size → t'.capacity = t.capacity * 2) ∧
      10 * t'.size ≤ 7 * t'.capacity + 10 := by
  obtain ⟨f, rfl⟩ : ∃ f, fuel = f + 2 := ⟨fuel - 2, by omega⟩
  have hcount : t.table.countP Entry.live ≤ t.table.length := List.countP_le_length _
  have hlen := hinv.len
  have hsz := hinv.sizeEq
  have hpos := hinv.pos
  by_cases hload : 10 * t.size > 7 * t.capacity
  · obtain ⟨t1, hres, hinv1, hcap1, hsize1, hholds1⟩ :=
      resizeWith_spec f t hinv.len hinv.pos hinv.distinctLive
    obtain ⟨t', hins, hcap', hpost⟩ := insert_after (f + 1) t t1 k v
      (by rw [if_pos hload]; exact hres) hinv1 (by omega)
    have hex : (∃ v0, t1.Holds k v0) ↔ (∃ v0, t.Holds k v0) :=
      exists_congr (fun v0 => hholds1 k v0)
    have hsize_le : t'.size ≤ t1.size + 1 := by
      by_cases hk : ∃ v0, t1.Holds k v0
      · rw [hpost.sizeOld hk]; omega
      · rw [hpost.sizeNew (fun v0 h0 => hk ⟨v0, h0⟩)]
    refine ⟨t', hins, ⟨hpost.inv, ?_, ?_, ?_⟩, ?_, ?_, ?_⟩
    · intro h
      rw [hpost.sizeOld (hex.mpr h), hsize1, hsz]
    · intro h
      rw [hpost.sizeNew (fun v0 h0 => h v0 ((hholds1 k v0).mp h0)), hsize1, hsz]
    · intro k' v'
      rw [hpost.holds, hholds1]
    · intro h; omega
    · intro _; rw [hcap', hcap1]
    · rw [hcap', hcap1]; omega
  · obtain ⟨t', hins, hcap', hpost⟩ := insert_direct (f + 1) t hinv (by omega) k v
    have hsize_le : t'.size ≤ t.size + 1 := by
      by_cases hk : ∃ v0, t.Holds k v0
      · rw [hpost.sizeOld hk]; omega
      · rw [hpost.sizeNew (fun v0 h0 => hk ⟨v0, h0⟩)]
    refine ⟨t', hins, hpost, fun _ => hcap', fun h => by omega, ?_⟩
    rw [hcap']; omega

theorem lastValue_nil (k : String) : lastValue [] k = none := rfl

theorem lastValue_concat (ops : List (String × Int)) (kv : String × Int) (k : String) :
    lastValue (ops ++ [kv]) k = if kv.1 = k then some kv.2 else lastValue ops k := by
  unfold lastValue
  rw [List.filter_append]
  by_cases h : kv.1 = k
  · simp [List.filter_cons, h]
  · simp [List.filter_cons, h]

theorem insertAll_concat (fuel : Nat) (t : HashTable) (ops : List (String × Int))
    (kv : String × Int) :
    insertAllExact fuel t (ops ++ [kv]) =
      (insertAllExact fuel t ops).bind (fun acc => insertExact fuel acc kv.1 kv.2) := by
  unfold insertAllExact
  rw [List.foldlM_append]
  cases List.foldlM (fun acc kv => insertExact fuel acc kv.1 kv.2) t ops with
  | none => rfl
  | some acc => simp [List.foldlM_cons]

theorem lastValue_isSome_iff (ops : List (String × Int)) (k : String) :
    (∃ v, lastValue ops k = some v) ↔ k ∈ ops.map Prod.fst := by
  induction ops using List.reverseRecOn with
  | nil => simp [lastValue_nil]
  | append_singleton ops x ih =>
    rw [List.map_append, List.mem_append]
    simp only [lastValue_concat, List.map_cons, List.map_nil, List.mem_singleton]
    by_cases h : x.1 = k
    · rw [if_pos h]
      exact ⟨fun _ => Or.inr h.symm, fun _ => ⟨x.2, rfl⟩⟩
    · rw [if_neg h, ih]
      exact ⟨Or.inl, fun h' => h'.elim id (fun h2 => absurd h2.symm h)⟩

theorem nodup_liveKeys :
    ∀ es : List Entry, DistinctLive es →
      ((es.filter (fun entry => entry.occupied && !entry.deleted)).map Entry.key).Nodup := by
  intro es
  induction es with
  | nil => intro _; exact List.nodup_nil
  | cons e es ih =>
    intro hd
    obtain ⟨hhead, htail⟩ := List.pairwise_cons.mp hd
    by_cases hl : (e.occupied && !e.deleted) = true
    · rw [List.filter_cons_of_pos (p := fun entry : Entry => entry.occupied && !entry.deleted) hl,
        List.map_cons, List.nodup_cons]
      refine ⟨?_, ih htail⟩
      intro hmem
      obtain ⟨e', he', hk⟩ := List.mem_map.mp hmem
      rw [List.mem_filter] at he'
      exact hhead e' he'.1 hl he'.2 hk.symm
    · rw [List.filter_cons_of_neg (p := fun entry : Entry => entry.occupied && !entry.deleted) hl]
      exact ih htail

theorem nodup_getAllKeys (t : HashTable) (hd : DistinctLive t.table) : t.getAllKeys.Nodup :=
  nodup_liveKeys t.table hd

end HashTable

/-! ## Lemmas: hash value, fuel, loader -/

theorem foldl_hash_mod (cap : Nat) :
    ∀ (cs : List Char) (init : Nat),
      cs.foldl (fun hash c => (hash * 31 + c.toNat) % cap) init % cap =
        (init * 31 ^ cs.length + polyHash (cs.map Char.toNat)) % cap := by
  intro cs
  induction cs with
  | nil => intro init; simp [polyHash]
  | cons c cs ih =>
    intro init
    simp only [List.foldl_cons, List.length_cons, List.map_cons, polyHash, List.length_map]
    rw [ih]
    have h1 : ((init * 31 + c.toNat) % cap * 31 ^ cs.length +
        polyHash (cs.map Char.toNat)) % cap =
        ((init * 31 + c.toNat) * 31 ^ cs.length + polyHash (cs.map Char.toNat)) % cap := by
      rw [Nat.add_mod, Nat.mul_mod, Nat.mod_mod, ← Nat.mul_mod, ← Nat.add_mod]
    rw [h1]
    congr 1
    ring

theorem countFor_concat (k : String) (records : List (String × Int)) (r : String × Int) :
    countFor k (records ++ [r]) = countFor k records + if r.1 = k then r.2 else 0 := by
  unfold countFor
  rw [List.filter_append]
  by_cases h : r.1 = k
  · simp [List.filter_cons, h]
  · simp [List.filter_cons, h]

theorem countFor_of_not_mem (k : String) (records : List (String × Int))
    (h : k ∉ records.map Prod.fst) : countFor k records = 0 := by
  unfold countFor
  have hnil : records.filter (fun r => r.1 = k) = [] := by
    rw [List.filter_eq_nil_iff]
    intro r hr hk
    exact h (List.mem_map.mpr ⟨r, hr, by simpa using hk⟩)
  rw [hnil]
  rfl

theorem Trie.foldInsert_concat (t : Trie) (ops : List (String × Int)) (kv : String × Int) :
    Trie.insertAll t (ops ++ [kv]) = (Trie.insertAll t ops).insert kv.1 kv.2 := by
  unfold Trie.insertAll
  rw [List.foldl_append]
  rfl

theorem loadAll_concat (fuel : Nat) (s : HashTable × Trie) (records : List (String × Int))
    (r : String × Int) :
    loadAll fuel s (records ++ [r]) =
      (loadAll fuel s records).bind (fun acc => loadRecord fuel acc r.1 r.2) := by
  unfold loadAll
  rw [List.foldlM_append]
  cases List.foldlM (fun acc r => loadRecord fuel acc r.1 r.2) s records with
  | none => rfl
  | some acc => simp [List.foldlM_cons]

theorem normalize_of_lettersOnly {name : String} (h : lettersOnly name) :
    normalize name = lowerName name := by
  unfold normalize
  rw [List.filter_eq_self]
  intro c hc
  obtain ⟨x, hx, rfl⟩ := List.mem_map.mp hc
  rw [isLetter_tolower]
  exact isLetter_true_tolower (h x hx)

/-- The loop of `loadData` from an empty table of positive capacity and an empty trie:
it returns, the trie is the one built by the same inserts, and the table stores for each
name of the records the sum of its counts. -/
theorem loadAll_spec (c fuel : Nat) (hc : 0 < c) (hf : 2 ≤ fuel) :
    ∀ records : List (String × Int),
      ∃ t, loadAll fuel (HashTable.new c, Trie.new) records =
          some (t, Trie.insertAll Trie.new records) ∧ t.Inv ∧
        ∀ k v, t.Holds k v ↔ (k ∈ records.map Prod.fst ∧ v = countFor k records) := by
  intro records
  induction records using List.reverseRecOn with
  | nil =>
    refine ⟨HashTable.new c, rfl, HashTable.inv_new c hc, ?_⟩
    intro k v
    constructor
    · intro h; exact absurd h (HashTable.not_holds_new _ _ _)
    · rintro ⟨h, _⟩; cases h
  | append_singleton records r ih =>
    obtain ⟨t, hrun, hinv, hholds⟩ := ih
    have hget : t.getExact r.1 = some (countFor r.1 records) := by
      by_cases hmem : r.1 ∈ records.map Prod.fst
      · exact HashTable.get_of_holds t hinv r.1 _ ((hholds r.1 _).mpr ⟨hmem, rfl⟩)
      · rw [countFor_of_not_mem r.1 records hmem]
        exact HashTable.get_of_not_holds t r.1 hinv.len hinv.pos
          (fun v hv => hmem ((hholds r.1 v).mp hv).1)
    obtain ⟨t', hins, hpost, _⟩ :=
      HashTable.insert_spec t hinv r.1 (countFor r.1 records + r.2) fuel hf
    refine ⟨t', ?_, hpost.inv, ?_⟩
    · rw [loadAll_concat, hrun, Trie.foldInsert_concat]
      simp only [Option.bind, loadRecord, hget, hins]
    · intro k v
      rw [hpost.holds, countFor_concat, List.map_append, List.mem_append, hholds]
      simp only [List.map_cons, List.map_nil, List.mem_singleton]
      by_cases hk : r.1 = k
      · subst hk
        rw [if_pos rfl]
        constructor
        · rintro (⟨_, hv⟩ | ⟨hne, _⟩)
          · exact ⟨Or.inr rfl, hv⟩
          · exact absurd rfl hne
        · rintro ⟨_, hv⟩
          exact Or.inl ⟨rfl, hv⟩
      · rw [if_neg hk]
        have hk' : k ≠ r.1 := fun h => hk h.symm
        constructor
        · rintro (⟨h1, _⟩ | ⟨_, hm, hv⟩)
          · exact absurd h1 hk'
          · exact ⟨Or.inl hm, by rw [hv]; simp⟩
        · rintro ⟨hm, hv⟩
          right
          refine ⟨hk', ?_, by rw [hv]; simp⟩
          rcases hm with hm | hm
          · exact hm
          · exact absurd hm hk'

theorem HashTable.distinctLive_index (l : List Entry) :
    HashTable.DistinctLive l ↔
      ∀ (i j : Nat) (e1 e2 : Entry), l[i]? = some e1 → l[j]? = some e2 →
        e1.live = true → e2.live = true → e1.key = e2.key → i = j := by
  unfold HashTable.DistinctLive
  rw [List.pairwise_iff_getElem]
  constructor
  · intro h i j e1 e2 h1 h2 hl1 hl2 hk
    obtain ⟨hi, rfl⟩ := List.getElem?_eq_some_iff.mp h1
    obtain ⟨hj, rfl⟩ := List.getElem?_eq_some_iff.mp h2
    rcases Nat.lt_trichotomy i j with hlt | heq | hgt
    · exact absurd hk (h i j hi hj hlt hl1 hl2)
    · exact heq
    · exact absurd hk.symm (h j i hj hi hgt hl2 hl1)
  · intro h i j hi hj hij hl1 hl2 hk
    have := h i j _ _ (List.getElem?_eq_getElem hi) (List.getElem?_eq_getElem hj) hl1 hl2 hk
    omega

/-- Writing a current entry for `k` into slot `i` keeps the current keys distinct when no
other slot holds a current entry for `k`. -/
theorem HashTable.distinctLive_set (l : List Entry) (i : Nat) (k : String) (v : Int)
    (hi : i < l.length) (hd : HashTable.DistinctLive l)
    (honly : ∀ (j : Nat) (e' : Entry), j ≠ i → l[j]? = some e' → e'.live = true →
      e'.key ≠ k) :
    HashTable.DistinctLive (l.set i ⟨k, v, true, false⟩) := by
  rw [HashTable.distinctLive_index] at hd ⊢
  have hget : ∀ j, (l.set i ⟨k, v, true, false⟩)[j]? =
      if i = j then some ⟨k, v, true, false⟩ else l[j]? := by
    intro j
    rw [List.getElem?_set]
    simp [hi]
  intro j1 j2 e1 e2 h1 h2 hl1 hl2 hkey
  simp only [hget] at h1 h2
  split at h1 <;> split at h2
  · omega
  · rename_i hj1 hj2
    cases h1
    exact absurd hkey.symm (honly j2 e2 (fun h => hj2 h.symm) h2 hl2)
  · rename_i hj1 hj2
    cases h2
    exact absurd hkey (honly j1 e1 (fun h => hj1 h.symm) h1 hl1)
  · exact hd j1 j2 e1 e2 h1 h2 hl1 hl2 hkey

/-! ## Lemmas: the 32-bit operations on ASCII keys and bounded capacities -/

theorem charValues_ascii_list :
    ∀ cs : List Char, (∀ c ∈ cs, c.toNat < 128) →
      (cs.flatMap (fun c => utf8Bytes c.toNat)).map toSignedChar =
        cs.map (fun c => (c.toNat : Int)) := by
  intro cs
  induction cs with
  | nil => intro _; rfl
  | cons c cs ih =>
    intro h
    have hc := h c (List.mem_cons_self _ _)
    rw [List.flatMap_cons, List.map_append, ih (fun c' hc' => h c' (List.mem_cons_of_mem _ hc'))]
    simp [utf8Bytes, toSignedChar, hc]

theorem wrapInt_of_fits (x : Int) (h0 : 0 ≤ x) (h1 : x < 2147483648) : wrapInt x = x := by
  unfold wrapInt
  omega

theorem hash_fold_ascii (cap : Nat) (hpos : 0 < cap) (hcap : cap ≤ hashBound) :
    ∀ cs : List Char, (∀ c ∈ cs, c.toNat < 128) → ∀ init : Nat, init < cap →
      (cs.map (fun c => (c.toNat : Int))).foldlM
          (fun hash c =>
            if cap = 0 then none
            else some ((wrapInt (hash * 31 + c)).tmod (cap : Int)))
          (init : Int) =
        some ((cs.foldl (fun hash c => (hash * 31 + c.toNat) % cap) init : Nat) : Int) := by
  intro cs
  induction cs with
  | nil => intro _ init _; rfl
  | cons c cs ih =>
    intro h init hinit
    have hc := h c (List.mem_cons_self _ _)
    have hne : ¬ cap = 0 := by omega
    have hfit : wrapInt ((init : Int) * 31 + (c.toNat : Int)) =
        ((init * 31 + c.toNat : Nat) : Int) := by
      rw [wrapInt_of_fits]
      · push_cast; rfl
      · omega
      · unfold hashBound at hcap; omega
    simp only [List.map_cons, List.foldlM_cons, List.foldl_cons]
    rw [if_neg hne, hfit, ← Int.ofNat_tmod]
    exact ih (fun c' hc' => h c' (List.mem_cons_of_mem _ hc')) _ (Nat.mod_lt _ hpos)

/-- On an ASCII key and a capacity between 1 and `hashBound`, `hashFunction` is the
exact hash and is a slot index. -/
theorem HashTable.homeSlot_eq (t : HashTable) (k : String) (hk : asciiKey k)
    (hpos : 0 < t.capacity) (hcap : t.capacity ≤ hashBound) :
    t.hashFunction k = some (t.hashExact k : Int) ∧ t.homeSlot k = some (t.hashExact k) := by
  have h : t.hashFunction k = some (t.hashExact k : Int) := by
    unfold HashTable.hashFunction HashTable.hashExact charValues
    rw [charValues_ascii_list k.toList hk]
    exact hash_fold_ascii t.capacity hpos hcap k.toList hk 0 hpos
  refine ⟨h, ?_⟩
  unfold HashTable.homeSlot
  rw [h]
  simp

theorem HashTable.get_eq_exact (t : HashTable) (k : String) (hk : asciiKey k)
    (hpos : 0 < t.capacity) (hcap : t.capacity ≤ hashBound) : t.get k = t.getExact k := by
  unfold HashTable.get HashTable.getExact
  rw [(HashTable.homeSlot_eq t k hk hpos hcap).2]

theorem HashTable.resizeWith_eq_exact (ins : HashTable → String → Int → Option HashTable)
    (t : HashTable) (hcap : t.capacity * 2 ≤ hashBound) :
    HashTable.resizeWith ins t = HashTable.resizeWithExact ins t := by
  have hw : wrapInt ((t.capacity : Int) * 2) = ((t.capacity * 2 : Nat) : Int) := by
    rw [wrapInt_of_fits]
    · push_cast; rfl
    · omega
    · unfold hashBound at hcap; omega
  unfold HashTable.resizeWith HashTable.resizeWithExact
  simp only [hw]
  rw [if_neg (by omega)]
  rfl

theorem HashTable.insert_succ (fuel : Nat) (t : HashTable) (key : String) (value : Int) :
    HashTable.insert (fuel + 1) t key value =
      HashTable.insertWith (HashTable.insert fuel) t key value :=
  rfl

theorem HashTable.insertExact_succ (fuel : Nat) (t : HashTable) (key : String) (value : Int) :
    HashTable.insertExact (fuel + 1) t key value =
      match (if 10 * t.size > 7 * t.capacity then
          HashTable.resizeWithExact (HashTable.insertExact fuel) t else some t) with
      | none => none
      | some t1 =>
        match t1.insertProbe key (t1.hashExact key) t1.capacity (t1.hashExact key) with
        | none => none
        | some ProbeResult.fullCycle =>
          match HashTable.resizeWithExact (HashTable.insertExact fuel) t1 with
          | none => none
          | some t2 => HashTable.insertExact fuel t2 key value
        | some (ProbeResult.found index) => t1.store index key value := by
  rw [HashTable.insertExact]

theorem HashTable.insert_direct_eq (f : Nat) (t : HashTable) (hinv : t.Inv)
    (hload : 10 * t.size ≤ 7 * t.capacity) (k : String) (v : Int) (hk : asciiKey k)
    (hcap : t.capacity ≤ hashBound) :
    HashTable.insert (f + 1) t k v = HashTable.insertExact (f + 1) t k v := by
  have hpos := hinv.pos
  obtain ⟨d, e0, _, hrun, _⟩ := HashTable.insertProbe_found t hinv (by omega) k
  rw [HashTable.insert_succ, HashTable.insertExact_succ]
  simp only [HashTable.insertWith,
    if_neg (show ¬ 10 * t.size > 7 * t.capacity by omega),
    (HashTable.homeSlot_eq t k hk hpos hcap).2, hrun]

theorem HashTable.refill_eq (f : Nat) :
    ∀ (es : List Entry) (acc : HashTable), acc.Inv →
      2 * (acc.size + es.length) ≤ acc.capacity → HashTable.DistinctLive es →
      (∀ e ∈ es, e.live = true → ∀ v, ¬ acc.Holds e.key v) →
      (∀ e ∈ es, e.live = true → asciiKey e.key) → acc.capacity ≤ hashBound →
      es.foldlM (HashTable.refillStep (HashTable.insert (f + 1))) acc =
        es.foldlM (HashTable.refillStep (HashTable.insertExact (f + 1))) acc := by
  intro es
  induction es with
  | nil => intro acc _ _ _ _ _ _; simp only [List.foldlM_nil]
  | cons e es ih =>
    intro acc hinv hsize hdist hfresh hkeys hcap
    have hdist' : HashTable.DistinctLive es := (List.pairwise_cons.mp hdist).2
    have hhead := (List.pairwise_cons.mp hdist).1
    simp only [List.length_cons] at hsize
    by_cases hl : e.live = true
    · obtain ⟨acc', hins, hcap', hpost⟩ :=
        HashTable.insert_direct f acc hinv (by omega) e.key e.value
      have hsim := HashTable.insert_direct_eq f acc hinv (by omega) e.key e.value
        (hkeys e (List.mem_cons_self _ _) hl) hcap
      have hsz : acc'.size = acc.size + 1 :=
        hpost.sizeNew (hfresh e (List.mem_cons_self _ _) hl)
      simp only [List.foldlM_cons, HashTable.refillStep_eq, hl, if_true, hsim, hins]
      exact ih acc' hpost.inv (by rw [hsz, hcap']; omega) hdist'
        (by
          intro e' he' hl' v hv
          rcases (hpost.holds _ _).mp hv with ⟨hk, _⟩ | ⟨_, hold⟩
          · exact hhead e' he' hl hl' hk.symm
          · exact hfresh e' (List.mem_cons_of_mem _ he') hl' v hold)
        (fun e' he' hl' => hkeys e' (List.mem_cons_of_mem _ he') hl')
        (by rw [hcap']; exact hcap)
    · simp only [List.foldlM_cons, HashTable.refillStep_eq, hl]
      exact ih acc hinv (by omega) hdist'
        (fun e' he' hl' => hfresh e' (List.mem_cons_of_mem _ he') hl')
        (fun e' he' hl' => hkeys e' (List.mem_cons_of_mem _ he') hl') hcap

/-- `resize` on a table with ASCII keys whose doubled capacity is at most `hashBound`
computes what `resize` computes in exact arithmetic. -/
theorem HashTable.resize_eq (f : Nat) (t : HashTable) (hpos : 0 < t.capacity)
    (hlen : t.table.length = t.capacity) (hdist : HashTable.DistinctLive t.table)
    (hkeys : ∀ e ∈ t.table, e.live = true → asciiKey e.key)
    (hcap : t.capacity * 2 ≤ hashBound) :
    HashTable.resizeWith (HashTable.insert (f + 1)) t =
      HashTable.resizeWithExact (HashTable.insertExact (f + 1)) t := by
  rw [HashTable.resizeWith_eq_exact _ t hcap, HashTable.resizeWith_eq, HashTable.resizeWith_eq]
  exact HashTable.refill_eq f t.table (HashTable.new (t.capacity * 2))
    (HashTable.inv_new _ (by omega)) (by simp only [HashTable.new]; omega) hdist
    (fun e _ _ v => HashTable.not_holds_new _ _ v) hkeys hcap

/-- `insert` on a table with `capacity` slots in any state, `size` equal to the number
of current entries, distinct current keys, ASCII keys and capacities within `hashBound`
computes what `insert` computes in exact arithmetic. -/
theorem HashTable.insert_eq (f : Nat) (t : HashTable) (k : String) (v : Int)
    (hlen : t.table.length = t.capacity) (hpos : 0 < t.capacity)
    (hsize : t.size = t.table.countP Entry.live) (hdist : HashTable.DistinctLive t.table)
    (hk : asciiKey k) (hkeys : ∀ e ∈ t.table, e.live = true → asciiKey e.key)
    (hcap : t.capacity ≤ hashBound)
    (hcap2 : 10 * t.size > 7 * t.capacity → t.capacity * 2 ≤ hashBound) :
    HashTable.insert (f + 2) t k v = HashTable.insertExact (f + 2) t k v := by
  have hcount : t.table.countP Entry.live ≤ t.table.length := List.countP_le_length _
  by_cases hload : 10 * t.size > 7 * t.capacity
  · obtain ⟨t1, hres, hinv1, hcap1, hsize1, _⟩ :=
      HashTable.resizeWith_spec f t hlen hpos hdist
    have hsim := HashTable.resize_eq f t hpos hlen hdist hkeys (hcap2 hload)
    obtain ⟨d, e0, _, hrun, _⟩ := HashTable.insertProbe_found t1 hinv1 (by omega) k
    have hhome := (HashTable.homeSlot_eq t1 k hk hinv1.pos
      (by rw [hcap1]; exact hcap2 hload)).2
    rw [HashTable.insert_succ, HashTable.insertExact_succ]
    simp only [HashTable.insertWith, if_pos hload, hsim, hres, hhome, hrun]
  · have hh := HashTable.hashExact_lt t k hpos
    have hhome := (HashTable.homeSlot_eq t k hk hpos hcap).2
    have hspec := HashTable.insertProbe_spec t k _ hlen hh t.capacity 0 (by omega) hpos
    rw [probe_pos_start hh] at hspec
    rcases hspec with ⟨d, _, _, hrun, _, _⟩ | ⟨_, hall⟩
    · rw [HashTable.insert_succ, HashTable.insertExact_succ]
      simp only [HashTable.insertWith, if_neg hload, hhome, hrun]
    · exfalso
      have hfull : t.table.countP Entry.live = t.table.length := by
        rw [List.countP_eq_length]
        intro a ha
        obtain ⟨n, hn⟩ := List.mem_iff_getElem?.mp ha
        obtain ⟨d, hd, hposd⟩ := probe_pos_surj hh (HashTable.slot_lt t hlen hn)
        obtain ⟨e, hs, hb⟩ := hall d (Nat.zero_le _) hd
        rw [hposd, hn] at hs
        cases hs
        unfold Entry.blocks at hb
        simp only [Bool.and_eq_true] at hb
        simp only [Entry.live, Bool.and_eq_true]
        exact hb.1
      omega

theorem HashTable.insertAll_snoc (fuel : Nat) (t : HashTable) (ops : List (String × Int))
    (kv : String × Int) :
    HashTable.insertAll fuel t (ops ++ [kv]) =
      (HashTable.insertAll fuel t ops).bind (fun acc => HashTable.insert fuel acc kv.1 kv.2) := by
  unfold HashTable.insertAll
  rw [List.foldlM_append]
  cases List.foldlM (fun acc kv => HashTable.insert fuel acc kv.1 kv.2) t ops with
  | none => rfl
  | some acc => simp [List.foldlM_cons]

/-- One `insert` on a table that satisfies the invariant, holds ASCII keys and stays
within `hashBound`: it returns what `insert` returns in exact arithmetic. -/
theorem HashTable.step_spec (t : HashTable) (hinv : t.Inv) (k : String) (v : Int)
    (fuel : Nat) (hf : 2 ≤ fuel) (hk : asciiKey k)
    (hkeys : ∀ e ∈ t.table, e.live = true → asciiKey e.key)
    (hcap : t.capacity ≤ hashBound) (hsz : 3 * (t.size + 1) ≤ hashBound) :
    ∃ t', HashTable.insert fuel t k v = some t' ∧
      HashTable.insertExact fuel t k v = some t' ∧ HashTable.InsertPost t t' k v ∧
      (10 * t.size ≤ 7 * t.capacity → t'.capacity = t.capacity) ∧
      (7 * t.capacity < 10 * t.size → t'.capacity = t.capacity * 2) ∧
      10 * t'.size ≤ 7 * t'.capacity + 10 ∧ t'.capacity ≤ hashBound := by
  obtain ⟨t', hins, hpost, hsame, hdouble, hloadf⟩ := HashTable.insert_spec t hinv k v fuel hf
  obtain ⟨f, rfl⟩ : ∃ f, fuel = f + 2 := ⟨fuel - 2, by omega⟩
  have hcap2 : 10 * t.size > 7 * t.capacity → t.capacity * 2 ≤ hashBound := by
    intro h; omega
  have hsim := HashTable.insert_eq f t k v hinv.len hinv.pos hinv.sizeEq hinv.distinctLive
    hk hkeys hcap hcap2
  refine ⟨t', by rw [hsim]; exact hins, hins, hpost, hsame, hdouble, hloadf, ?_⟩
  by_cases hload : 10 * t.size > 7 * t.capacity
  · rw [hdouble (by omega)]; exact hcap2 hload
  · rw [hsame (by omega)]; exact hcap

theorem InRange.init {c : Nat} {ops : List (String × Int)} {kv : String × Int}
    (h : InRange c (ops ++ [kv])) : InRange c ops ∧ asciiKey kv.1 := by
  obtain ⟨h1, h2, h3, h4⟩ := h
  simp only [List.length_append, List.length_cons, List.length_nil] at h3
  exact ⟨⟨h1, h2, by omega, fun x hx => h4 x (List.mem_append_left _ hx)⟩,
    h4 kv (List.mem_append_right _ (List.mem_singleton.mpr rfl))⟩

/-- A sequence of inserts within range into a fresh table returns what it returns in
exact arithmetic; the result satisfies the invariant, stores for each key the value of
its last insert, holds ASCII keys only and has a capacity of at most `hashBound`. -/
theorem HashTable.reach_spec (c fuel : Nat) (hf : 2 ≤ fuel) :
    ∀ ops : List (String × Int), InRange c ops →
      ∃ t, HashTable.insertAll fuel (HashTable.new c) ops = some t ∧
        HashTable.insertAllExact fuel (HashTable.new c) ops = some t ∧ t.Inv ∧
        (∀ k v, t.Holds k v ↔ HashTable.lastValue ops k = some v) ∧
        t.size ≤ ops.length ∧ t.capacity ≤ hashBound ∧
        (∀ e ∈ t.table, e.live = true → asciiKey e.key) := by
  intro ops
  induction ops using List.reverseRecOn with
  | nil =>
    intro hr
    refine ⟨HashTable.new c, rfl, rfl, HashTable.inv_new c hr.1, ?_, Nat.zero_le _, hr.2.1, ?_⟩
    · intro k v
      simp only [HashTable.lastValue_nil]
      constructor
      · intro h; exact absurd h (HashTable.not_holds_new _ _ _)
      · intro h; cases h
    · intro e he hl
      exact absurd ((HashTable.holds_iff_mem _ e.key e.value).mpr ⟨e, he, hl, rfl, rfl⟩)
        (HashTable.not_holds_new _ _ _)
  | append_singleton ops kv ih =>
    intro hr
    obtain ⟨hr', hkv⟩ := hr.init
    obtain ⟨t, hrun, hrunE, hinv, hholds, hsize, hcap, hkeys⟩ := ih hr'
    have hlen3 : 3 * (ops.length + 1) ≤ hashBound := by
      have := hr.2.2.1
      simp only [List.length_append, List.length_cons, List.length_nil] at this
      exact this
    obtain ⟨t', hins, hinsE, hpost, _, _, _, hcap'⟩ :=
      HashTable.step_spec t hinv kv.1 kv.2 fuel hf hkv hkeys hcap (by omega)
    have hsize' : t'.size ≤ t.size + 1 := by
      by_cases hk : ∃ v0, t.Holds kv.1 v0
      · rw [hpost.sizeOld hk]; omega
      · rw [hpost.sizeNew (fun v0 h0 => hk ⟨v0, h0⟩)]
    have hholds' : ∀ k v, t'.Holds k v ↔ HashTable.lastValue (ops ++ [kv]) k = some v := by
      intro k v
      rw [hpost.holds, HashTable.lastValue_concat, hholds]
      by_cases h : kv.1 = k
      · subst h
        rw [if_pos rfl]
        constructor
        · rintro (⟨_, hv⟩ | ⟨hne, _⟩)
          · rw [hv]
          · exact absurd rfl hne
        · intro hv; exact Or.inl ⟨rfl, (Option.some.inj hv).symm⟩
      · simp only [if_neg h]
        constructor
        · rintro (⟨hk, _⟩ | ⟨_, hv⟩)
          · exact absurd hk.symm h
          · exact hv
        · intro hv; exact Or.inr ⟨fun hk => h hk.symm, hv⟩
    refine ⟨t', ?_, ?_, hpost.inv, hholds', ?_, hcap', ?_⟩
    · rw [HashTable.insertAll_snoc, hrun]; exact hins
    · rw [HashTable.insertAll_concat, hrunE]; exact hinsE
    · simp only [List.length_append, List.length_cons, List.length_nil]; omega
    · intro e he hl
      have hh : t'.Holds e.key e.value :=
        (HashTable.holds_iff_mem _ e.key e.value).mpr ⟨e, he, hl, rfl, rfl⟩
      have hmem := (HashTable.lastValue_isSome_iff (ops ++ [kv]) e.key).mp
        ⟨e.value, (hholds' _ _).mp hh⟩
      obtain ⟨x, hx, hxk⟩ := List.mem_map.mp hmem
      rw [← hxk]
      exact hr.2.2.2 x hx

/-- A sequence of inserts within range followed by one more insert: both return what
they return in exact arithmetic, and the facts of `insert_spec` hold of the last one. -/
theorem HashTable.reach_insert (c fuel : Nat) (ops : List (String × Int)) (k : String)
    (v : Int) (hr : InRange c (ops ++ [(k, v)])) (hf : 2 ≤ fuel) :
    ∃ t t', HashTable.insertAll fuel (HashTable.new c) ops = some t ∧
      HashTable.insert fuel t k v = some t' ∧ HashTable.insertExact fuel t k v = some t' ∧
      t.Inv ∧ (∀ k v, t.Holds k v ↔ HashTable.lastValue ops k = some v) ∧
      t.capacity ≤ hashBound ∧ 3 * (t.size + 1) ≤ hashBound ∧
      (∀ e ∈ t.table, e.live = true → asciiKey e.key) ∧ asciiKey k ∧
      HashTable.InsertPost t t' k v ∧
      (10 * t.size ≤ 7 * t.capacity → t'.capacity = t.capacity) ∧
      (7 * t.capacity < 10 * t.size → t'.capacity = t.capacity * 2) ∧
      10 * t'.size ≤ 7 * t'.capacity + 10 ∧ t'.capacity ≤ hashBound := by
  obtain ⟨hr', hk⟩ := hr.init
  obtain ⟨t, hrun, _, hinv, hholds, hsize, hcap, hkeys⟩ := HashTable.reach_spec c fuel hf ops hr'
  have hlen3 : 3 * (ops.length + 1) ≤ hashBound := by
    have := hr.2.2.1
    simp only [List.length_append, List.length_cons, List.length_nil] at this
    exact this
  have hsz : 3 * (t.size + 1) ≤ hashBound := by omega
  obtain ⟨t', hins, hinsE, hpost, h1, h2, h3, h4⟩ :=
    HashTable.step_spec t hinv k v fuel hf hk hkeys hcap hsz
  exact ⟨t, t', hrun, hins, hinsE, hinv, hholds, hcap, hsz, hkeys, hk, hpost, h1, h2, h3, h4⟩

/-- The converse of `nodup_liveKeys`: when the list of the keys of the current entries
has no duplicate, the current entries have pairwise distinct keys. -/
theorem HashTable.distinct_of_nodup_liveKeys :
    ∀ es : List Entry,
      ((es.filter (fun entry => entry.occupied && !entry.deleted)).map Entry.key).Nodup →
      HashTable.DistinctLive es := by
  intro es
  induction es with
  | nil => intro _; exact List.Pairwise.nil
  | cons e es ih =>
    intro hnd
    by_cases hl : (e.occupied && !e.deleted) = true
    · rw [List.filter_cons_of_pos (p := fun entry : Entry => entry.occupied && !entry.deleted) hl,
        List.map_cons, List.nodup_cons] at hnd
      refine List.pairwise_cons.mpr ⟨?_, ih hnd.2⟩
      intro b hb _ hlb hk
      exact hnd.1 (List.mem_map.mpr ⟨b, List.mem_filter.mpr ⟨hb, hlb⟩, hk.symm⟩)
    · rw [List.filter_cons_of_neg (p := fun entry : Entry => entry.occupied && !entry.deleted) hl]
        at hnd
      refine List.pairwise_cons.mpr ⟨?_, ih hnd⟩
      intro b _ hle
      exact absurd hle hl

theorem HashTable.nodup_getAllKeys_iff (t : HashTable) :
    t.getAllKeys.Nodup ↔ HashTable.DistinctLive t.table :=
  ⟨HashTable.distinct_of_nodup_liveKeys t.table, HashTable.nodup_getAllKeys t⟩

/-- `insert` in exact arithmetic on a table with `capacity` slots in any state, `size`
equal to the number of current entries and distinct current keys: it returns, and the
current keys are distinct afterwards exactly when the load-factor test fired (and
`resize` rebuilt the table) or no deleted and no never-occupied slot lies before the
current entry of the key on its probe path. -/
theorem HashTable.insertExact_distinct_iff (t : HashTable) (k : String) (v : Int) (fuel : Nat)
    (hlen : t.table.length = t.capacity) (hpos : 0 < t.capacity)
    (hsize : t.size = t.table.countP Entry.live)
    (hdist : HashTable.DistinctLive t.table) (hf : 2 ≤ fuel) :
    ∃ t', HashTable.insertExact fuel t k v = some t' ∧
      (HashTable.DistinctLive t'.table ↔
        (10 * t.size > 7 * t.capacity ∨
          ∀ d, d < t.capacity → t.holdsAt ((t.hashExact k + d) % t.capacity) k = true →
            ∀ j, j < d → t.liveAt ((t.hashExact k + j) % t.capacity) = true)) := by
  obtain ⟨f, rfl⟩ : ∃ f, fuel = f + 2 := ⟨fuel - 2, by omega⟩
  have hcount : t.table.countP Entry.live ≤ t.table.length := List.countP_le_length _
  by_cases hload : 10 * t.size > 7 * t.capacity
  · obtain ⟨t1, hres, hinv1, hcap1, hsize1, _⟩ :=
      HashTable.resizeWith_spec f t hlen hpos hdist
    obtain ⟨t', hins, _, hpost⟩ := HashTable.insert_after (f + 1) t t1 k v
      (by rw [if_pos hload]; exact hres) hinv1 (by omega)
    exact ⟨t', hins, fun _ => Or.inl hload, fun _ => hpost.inv.distinctLive⟩
  · have hh := HashTable.hashExact_lt t k hpos
    have hspec := HashTable.insertProbe_spec t k _ hlen hh t.capacity 0 (by omega) hpos
    rw [probe_pos_start hh] at hspec
    rcases hspec with ⟨d, _, hd, hrun, ⟨e0, he0, hb0⟩, hpre⟩ | ⟨_, hall⟩
    · have hi : (t.hashExact k + d) % t.capacity < t.table.length := by
        rw [hlen]; exact Nat.mod_lt _ hpos
      have hdi := (HashTable.distinctLive_index t.table).mp hdist
      refine ⟨⟨t.table.set ((t.hashExact k + d) % t.capacity) ⟨k, v, true, false⟩,
        t.capacity, if !e0.occupied || e0.deleted then t.size + 1 else t.size⟩, ?_, ?_, ?_⟩
      · simp only [HashTable.insertExact, if_neg hload, hrun, HashTable.store, he0]
      · intro hnew
        right
        intro d' hd' hholds j hj
        by_contra hnl
        have hdj : d ≤ j := by
          by_contra hlt
          obtain ⟨e, hs, hb⟩ := hpre j (Nat.zero_le _) (by omega)
          apply hnl
          simp only [HashTable.liveAt, hs]
          unfold Entry.blocks at hb
          simp only [Bool.and_eq_true] at hb
          simp only [Entry.live, Bool.and_eq_true]
          exact hb.1
        have hne : (t.hashExact k + d) % t.capacity ≠ (t.hashExact k + d') % t.capacity := by
          intro heq
          have := probe_pos_inj hh hd hd' heq
          omega
        obtain ⟨e', he', hl', hk'⟩ : ∃ e', t.table[(t.hashExact k + d') % t.capacity]? = some e' ∧
            e'.live = true ∧ e'.key = k := by
          unfold HashTable.holdsAt at hholds
          cases hx : t.table[(t.hashExact k + d') % t.capacity]? with
          | none => rw [hx] at hholds; cases hholds
          | some e' =>
            rw [hx] at hholds
            simp only [Bool.and_eq_true, beq_iff_eq] at hholds
            exact ⟨e', rfl, hholds.1, hholds.2⟩
        have hnewi := (HashTable.distinctLive_index _).mp hnew
        simp only at hnewi
        have h1 : (t.table.set ((t.hashExact k + d) % t.capacity) ⟨k, v, true, false⟩)[
            (t.hashExact k + d) % t.capacity]? = some ⟨k, v, true, false⟩ := by
          rw [List.getElem?_set]
          simp [hi]
        have h2 : (t.table.set ((t.hashExact k + d) % t.capacity) ⟨k, v, true, false⟩)[
            (t.hashExact k + d') % t.capacity]? = some e' := by
          rw [List.getElem?_set]
          simp [hne, he']
        exact hne (hnewi _ _ _ _ h1 h2 rfl hl' hk'.symm)
      · rintro (hl | hfirst)
        · exact absurd hl hload
        · have honly : ∀ (j : Nat) (e' : Entry), j ≠ (t.hashExact k + d) % t.capacity →
              t.table[j]? = some e' → e'.live = true → e'.key ≠ k := by
            intro j e' hj he' hl' hk'
            obtain ⟨d', hd', hpos'⟩ := probe_pos_surj hh (HashTable.slot_lt t hlen he')
            rcases Nat.lt_trichotomy d' d with hlt | heq | hgt
            · obtain ⟨e, hs, hb⟩ := hpre d' (Nat.zero_le _) hlt
              rw [hpos', he'] at hs
              cases hs
              unfold Entry.blocks at hb
              simp [hk'] at hb
            · subst heq; exact hj hpos'.symm
            · have hholds : t.holdsAt ((t.hashExact k + d') % t.capacity) k = true := by
                simp [HashTable.holdsAt, hpos', he', hl', hk']
              have hlive := hfirst d' hd' hholds d hgt
              simp only [HashTable.liveAt, he0] at hlive
              have hk0 : e0.key = k := by
                unfold Entry.blocks at hb0
                unfold Entry.live at hlive
                simp only [Bool.and_eq_true] at hlive
                simpa [hlive.1, hlive.2] using hb0
              exact hj (hdi _ _ e' e0 he' he0 hl' hlive (hk'.trans hk0.symm))
          exact HashTable.distinctLive_set t.table _ k v hi hdist honly
    · exfalso
      have hfull : t.table.countP Entry.live = t.table.length := by
        rw [List.countP_eq_length]
        intro a ha
        obtain ⟨n, hn⟩ := List.mem_iff_getElem?.mp ha
        obtain ⟨d, hd, hposd⟩ := probe_pos_surj hh (HashTable.slot_lt t hlen hn)
        obtain ⟨e, hs, hb⟩ := hall d (Nat.zero_le _) hd
        rw [hposd, hn] at hs
        cases hs
        unfold Entry.blocks at hb
        simp only [Bool.and_eq_true] at hb
        simp only [Entry.live, Bool.and_eq_true]
        exact hb.1
      omega

/-! ## Lemmas: the shape of the tables of defined runs, for every key -/

theorem hash_fold_lt (cap : Nat) (hpos : 0 < cap) :
    ∀ (cs : List Int) (init x : Int), init < (cap : Int) →
      cs.foldlM
          (fun hash c =>
            if cap = 0 then none
            else some ((wrapInt (hash * 31 + c)).tmod (cap : Int)))
          init = some x → x < (cap : Int) := by
  intro cs
  induction cs with
  | nil =>
    intro init x hinit h
    simp only [List.foldlM_nil] at h
    cases h
    exact hinit
  | cons c cs ih =>
    intro init x _ h
    have hne : ¬ cap = 0 := by omega
    simp only [List.foldlM_cons] at h
    rw [if_neg hne] at h
    exact ih _ x (Int.tmod_lt_of_pos _ (by omega)) h

/-- A start index that is not negative is a slot index. -/
theorem HashTable.homeSlot_lt (t : HashTable) (k : String) (h : Nat) (hpos : 0 < t.capacity)
    (hh : t.homeSlot k = some h) : h < t.capacity := by
  unfold HashTable.homeSlot at hh
  cases hx : t.hashFunction k with
  | none => rw [hx] at hh; cases hh
  | some x =>
    rw [hx] at hh
    simp only at hh
    by_cases hneg : x < 0
    · rw [if_pos hneg] at hh; cases hh
    · rw [if_neg hneg] at hh
      cases hh
      have := hash_fold_lt t.capacity hpos (charValues k) 0 x (by omega) hx
      omega

theorem HashTable.shape_new (c : Nat) (hc : 0 < c) (hfit : c < 2147483648) :
    (HashTable.new c).Shape := by
  have hslot : ∀ (i : Nat) (e : Entry), (HashTable.new c).table[i]? = some e → e = Entry.empty := by
    intro i e h
    exact List.eq_of_mem_replicate (List.mem_iff_getElem?.mpr ⟨i, h⟩)
  refine ⟨by simp [HashTable.new], hc, hfit, ?_, ?_⟩
  · intro i e h
    rw [hslot i e h]
    rfl
  · simp only [HashTable.new]
    symm
    rw [List.countP_eq_zero]
    intro e he
    rw [List.eq_of_mem_replicate he]
    decide

/-- A table of the shape above that is not full has a never-occupied slot. -/
theorem HashTable.Shape.has_unoccupied {t : HashTable} (hs : t.Shape)
    (hroom : t.size < t.capacity) :
    ∃ (i : Nat) (e : Entry), t.table[i]? = some e ∧ e.occupied = false := by
  by_contra hno
  have hall : t.table.countP Entry.live = t.table.length := by
    rw [List.countP_eq_length]
    intro a ha
    obtain ⟨n, hn⟩ := List.mem_iff_getElem?.mp ha
    have hd := hs.noTomb n a hn
    by_contra hocc
    apply hno
    refine ⟨n, a, hn, ?_⟩
    cases ho : a.occupied
    · rfl
    · exact absurd (by simp [Entry.live, ho, hd]) hocc
  have := hs.sizeEq
  have := hs.len
  omega

/-- On a table of the shape above that is not full, the probe loop of `insert` started
at any slot stops at a slot, which does not hold a current entry of another key. -/
theorem HashTable.Shape.probe_found {t : HashTable} (hs : t.Shape) (hroom : t.size < t.capacity)
    (k : String) (h : Nat) (hh : h < t.capacity) :
    ∃ d e0, d < t.capacity ∧
      t.insertProbe k h t.capacity h = some (ProbeResult.found ((h + d) % t.capacity)) ∧
      t.table[(h + d) % t.capacity]? = some e0 ∧ e0.blocks k = false := by
  have hspec := HashTable.insertProbe_spec t k h hs.len hh t.capacity 0 (by omega) hs.pos
  rw [probe_pos_start hh] at hspec
  rcases hspec with ⟨d, _, hd, hrun, ⟨e0, he0, hb0⟩, _⟩ | ⟨_, hall⟩
  · exact ⟨d, e0, hd, hrun, he0, hb0⟩
  · exfalso
    have hfull : t.table.countP Entry.live = t.table.length := by
      rw [List.countP_eq_length]
      intro a ha
      obtain ⟨n, hn⟩ := List.mem_iff_getElem?.mp ha
      obtain ⟨d, hd, hpos⟩ := probe_pos_surj hh (HashTable.slot_lt t hs.len hn)
      obtain ⟨e, hse, hb⟩ := hall d (Nat.zero_le _) hd
      rw [hpos, hn] at hse
      cases hse
      unfold Entry.blocks at hb
      simp only [Bool.and_eq_true] at hb
      simp only [Entry.live, Bool.and_eq_true]
      exact hb.1
    have := hs.sizeEq
    have := hs.len
    omega

/-- The write at the end of `insert` keeps the shape and adds at most one entry. -/
theorem HashTable.Shape.store_keeps {t : HashTable} (hs : t.Shape) (i : Nat) (e0 : Entry)
    (k : String) (v : Int) (he0 : t.table[i]? = some e0) :
    ∃ t', t.store i k v = some t' ∧ t'.Shape ∧ t'.capacity = t.capacity ∧
      t'.size ≤ t.size + 1 := by
  have hi : i < t.table.length := (List.getElem?_eq_some_iff.mp he0).1
  have hdel0 : e0.deleted = false := hs.noTomb i e0 he0
  have hi_eq : t.table[i] = e0 := by
    have := List.getElem?_eq_getElem hi
    rw [he0] at this
    exact (Option.some.inj this).symm
  refine ⟨⟨t.table.set i ⟨k, v, true, false⟩, t.capacity,
      if !e0.occupied || e0.deleted then t.size + 1 else t.size⟩, ?_, ?_, rfl, ?_⟩
  · simp only [HashTable.store, he0]
  · refine ⟨?_, hs.pos, hs.fits, ?_, ?_⟩
    · simp only [List.length_set]; exact hs.len
    · intro j e hj
      rw [List.getElem?_set] at hj
      split at hj
      · cases hj; rfl
      · exact hs.noTomb j e hj
    · simp only
      rw [List.countP_set Entry.live t.table i _ hi, hi_eq, hdel0, ← hs.sizeEq]
      cases ho : e0.occupied
      · simp [Entry.live, ho]
      · have hl : e0.live = true := by simp [Entry.live, ho, hdel0]
        have := HashTable.countP_live_pos he0 hl
        rw [← hs.sizeEq] at this
        simp [Entry.live, ho, hdel0]
        omega
  · simp only
    split <;> omega

/-- The re-insertion loop of `resize`, when it is defined, keeps the shape, adds at most
one entry per current entry of the old slots, and does not shrink the capacity. -/
theorem HashTable.Shape.refill_keeps (ins : HashTable → String → Int → Option HashTable)
    (hins : HashTable.KeepsShape ins) :
    ∀ (es : List Entry) (acc t1 : HashTable), acc.Shape →
      es.foldlM (HashTable.refillStep ins) acc = some t1 →
      t1.Shape ∧ t1.size ≤ acc.size + es.countP Entry.live ∧ acc.capacity ≤ t1.capacity := by
  intro es
  induction es with
  | nil =>
    intro acc t1 hs h
    simp only [List.foldlM_nil] at h
    cases h
    exact ⟨hs, by simp, Nat.le_refl _⟩
  | cons e es ih =>
    intro acc t1 hs h
    simp only [List.foldlM_cons, HashTable.refillStep_eq] at h
    by_cases hl : e.live = true
    · rw [if_pos hl] at h
      cases hstep : ins acc e.key e.value with
      | none => rw [hstep] at h; cases h
      | some acc' =>
        rw [hstep] at h
        obtain ⟨hs', hsz', hcap'⟩ := hins acc e.key e.value acc' hs hstep
        obtain ⟨h1, h2, h3⟩ := ih acc' t1 hs' h
        refine ⟨h1, ?_, by omega⟩
        rw [List.countP_cons_of_pos _ _ hl]
        omega
    · rw [if_neg hl] at h
      obtain ⟨h1, h2, h3⟩ := ih acc t1 hs h
      refine ⟨h1, ?_, h3⟩
      rw [List.countP_cons_of_neg _ _ hl]
      exact h2

/-- `resize`, when it is defined, doubles the capacity at least, keeps the shape and
leaves the table less than half full. -/
theorem HashTable.Shape.resizeWith_keeps (ins : HashTable → String → Int → Option HashTable)
    (hins : HashTable.KeepsShape ins) (t t1 : HashTable) (hs : t.Shape)
    (h : HashTable.resizeWith ins t = some t1) :
    t1.Shape ∧ t1.size ≤ t.size ∧ 2 * t.capacity ≤ t1.capacity := by
  have hpos := hs.pos
  have hfit := hs.fits
  unfold HashTable.resizeWith at h
  simp only at h
  by_cases hneg : wrapInt ((t.capacity : Int) * 2) < 0
  · rw [if_pos hneg] at h; cases h
  · rw [if_neg hneg] at h
    have hw : wrapInt ((t.capacity : Int) * 2) = ((t.capacity * 2 : Nat) : Int) := by
      unfold wrapInt at hneg ⊢
      omega
    rw [hw, Int.toNat_ofNat] at h
    have hfit2 : t.capacity * 2 < 2147483648 := by
      unfold wrapInt at hneg
      omega
    have hfresh : (HashTable.new (t.capacity * 2)).Shape :=
      HashTable.shape_new _ (by omega) hfit2
    obtain ⟨h1, h2, h3⟩ := HashTable.Shape.refill_keeps ins hins t.table
      (HashTable.new (t.capacity * 2)) t1 hfresh h
    have hsz := hs.sizeEq
    simp only [HashTable.new] at h2 h3
    exact ⟨h1, by omega, by omega⟩

/-- The body of `insert`, when it is defined, keeps the shape; it adds at most one entry,
does not shrink the capacity, and changes the capacity only when the load-factor test
fires. -/
theorem HashTable.Shape.insertWith_keeps (ins : HashTable → String → Int → Option HashTable)
    (hins : HashTable.KeepsShape ins) (t : HashTable) (k : String) (v : Int) (t' : HashTable)
    (hs : t.Shape) (h : HashTable.insertWith ins t k v = some t') :
    t'.Shape ∧ t'.size ≤ t.size + 1 ∧ t.capacity ≤ t'.capacity ∧
      (10 * t.size ≤ 7 * t.capacity → t'.capacity = t.capacity) ∧
      10 * t'.size ≤ 7 * t'.capacity + 10 := by
  have hpos := hs.pos
  have hcount : t.table.countP Entry.live ≤ t.table.length := List.countP_le_length _
  have hlen := hs.len
  have hsz := hs.sizeEq
  obtain ⟨t1, hres, hs1, hsz1, hcap1, hsame1, hroom⟩ : ∃ t1,
      (if 10 * t.size > 7 * t.capacity then HashTable.resizeWith ins t else some t) = some t1 ∧
      t1.Shape ∧ t1.size ≤ t.size ∧ t.capacity ≤ t1.capacity ∧
      (10 * t.size ≤ 7 * t.capacity → t1.capacity = t.capacity) ∧
      10 * t1.size ≤ 7 * t1.capacity := by
    unfold HashTable.insertWith at h
    by_cases hload : 10 * t.size > 7 * t.capacity
    · rw [if_pos hload] at h ⊢
      cases hr : HashTable.resizeWith ins t with
      | none => rw [hr] at h; cases h
      | some t1 =>
        obtain ⟨h1, h2, h3⟩ := HashTable.Shape.resizeWith_keeps ins hins t t1 hs hr
        exact ⟨t1, rfl, h1, h2, by omega, fun hc => by omega, by omega⟩
    · rw [if_neg hload]
      exact ⟨t, rfl, hs, Nat.le_refl _, Nat.le_refl _, fun _ => rfl, by omega⟩
  unfold HashTable.insertWith at h
  rw [hres] at h
  simp only at h
  cases hhome : t1.homeSlot k with
  | none => rw [hhome] at h; cases h
  | some hk =>
    rw [hhome] at h
    simp only at h
    have hlt := HashTable.homeSlot_lt t1 k hk hs1.pos hhome
    have hpos1 := hs1.pos
    obtain ⟨d, e0, _, hrun, he0, _⟩ := hs1.probe_found (by omega) k hk hlt
    rw [hrun] at h
    simp only at h
    obtain ⟨t2, hst, hs2, hcap2, hsz2⟩ := hs1.store_keeps _ e0 k v he0
    rw [hst] at h
    cases h
    exact ⟨hs2, by omega, by omega, fun hc => by rw [hcap2]; exact hsame1 hc, by omega⟩

/-- Every `insert` that is defined keeps the shape, for every key and every fuel. -/
theorem HashTable.Shape.insert_keeps : ∀ fuel : Nat, HashTable.KeepsShape (HashTable.insert fuel) := by
  intro fuel
  induction fuel with
  | zero =>
    intro a k v b _ h
    cases h
  | succ f ih =>
    intro a k v b hs h
    rw [HashTable.insert_succ] at h
    obtain ⟨h1, h2, h3, _, _⟩ := HashTable.Shape.insertWith_keeps _ ih a k v b hs h
    exact ⟨h1, h2, h3⟩

/-- Every table that a sequence of inserts returns has the shape of its first table. -/
theorem HashTable.Shape.insertAll_keeps (fuel : Nat) :
    ∀ (ops : List (String × Int)) (t0 t : HashTable), t0.Shape →
      HashTable.insertAll fuel t0 ops = some t → t.Shape := by
  intro ops
  induction ops with
  | nil =>
    intro t0 t hs h
    simp only [HashTable.insertAll, List.foldlM_nil] at h
    cases h
    exact hs
  | cons kv ops ih =>
    intro t0 t hs h
    simp only [HashTable.insertAll, List.foldlM_cons] at h
    cases hstep : HashTable.insert fuel t0 kv.1 kv.2 with
    | none => rw [hstep] at h; cases h
    | some t1 =>
      rw [hstep] at h
      exact ih t1 t (HashTable.Shape.insert_keeps fuel t0 kv.1 kv.2 t1 hs hstep).1 h

/-! ## The hash table: lookups after inserts -/

/-- C1 at its failing input: the two bytes of "é" are the negative `char` values -61 and
-87, and `%` keeps their sign, so on a table of capacity 10 `hashFunction("é")` is -8;
`insert("é", 5)` indexes `table[-8]`, outside the slot vector, and has no defined result
for a `get("é")` to follow.  An ASCII key fails in the same way by overflow: at capacity
100000000, `hash * 31 + c` wraps for "Maximilian" and the index is -25573653. -/
theorem insert_then_get_negative_index :
    charValues "é" = [-61, -87] ∧
      (HashTable.new 10).hashFunction "é" = some (-8) ∧
      (HashTable.new 10).homeSlot "é" = none ∧
      HashTable.insert 2 (HashTable.new 10) "é" 5 = none ∧
      (HashTable.new 100000000).hashFunction "Maximilian" = some (-25573653) ∧
      HashTable.insert 2 (HashTable.new 100000000) "Maximilian" 2 = none := by
  decide

/-- C2 at its failing input: after `insert("Emma", 18)` on a table of capacity 10,
`get("Emma")` is 18; the next `insert("é", 5)` indexes `table[-8]` and has no defined
result, so nothing is known of `get("Emma")` after it.  With a resize: on a table of
capacity 1, "é" and "a" are inserted (at capacities 1 and 2 the index of "é" is 0), and
`insert("b", 3)` then doubles the capacity to 4, where the re-insertion of "é" indexes
`table[-2]`. -/
theorem insert_negative_index_frame :
    (HashTable.insertAll 2 (HashTable.new 10) [("Emma", 18)]).bind
        (fun t => t.get "Emma") = some 18 ∧
      HashTable.insertAll 2 (HashTable.new 10) [("Emma", 18), ("é", 5)] = none ∧
      (HashTable.insertAll 2 (HashTable.new 1) [("é", 1), ("a", 2)]).bind
        (fun t => t.get "é") = some 1 ∧
      HashTable.insertAll 2 (HashTable.new 1) [("é", 1), ("a", 2), ("b", 3)] = none := by
  decide

/-! ## The trie: accumulation -/

/-- C3. After any sequence of `Trie::insert` calls on an empty trie, `search k` for a
letters-only key `k` is the sum of the amounts of the inserts whose normalized key
(lowercased, non-letters dropped) is the lowercase of `k`; the result is the same for
every reordering of the inserts. -/
theorem trie_search_sum (ops ops' : List (String × Int)) (k : String) (hk : lettersOnly k)
    (hperm : ops.Perm ops') :
    Trie.search (Trie.insertAll Trie.new ops) k = amountFor (lowerName k) ops ∧
      Trie.search (Trie.insertAll Trie.new ops') k =
        Trie.search (Trie.insertAll Trie.new ops) k := by
  refine ⟨Trie.search_insertAll ops k hk, ?_⟩
  rw [Trie.search_insertAll ops k hk, Trie.search_insertAll ops' k hk]
  unfold amountFor
  exact (((hperm.filter _).map _).sum_eq).symm

theorem trie_search_sum_witness :
    lettersOnly "Emma" ∧
      ([("Emma", 18), ("emma", 5)] : List (String × Int)).Perm [("emma", 5), ("Emma", 18)] ∧
      Trie.search (Trie.insertAll Trie.new [("Emma", 18), ("emma", 5)]) "Emma" = 23 ∧
      Trie.search (Trie.insertAll Trie.new [("emma", 5), ("Emma", 18)]) "Emma" =
        Trie.search (Trie.insertAll Trie.new [("Emma", 18), ("emma", 5)]) "Emma" :=
  ⟨by decide, List.Perm.swap _ _ _,
    (trie_search_sum [("Emma", 18), ("emma", 5)] [("emma", 5), ("Emma", 18)] "Emma"
      (by decide) (List.Perm.swap _ _ _)).1.trans (by decide),
    (trie_search_sum [("Emma", 18), ("emma", 5)] [("emma", 5), ("Emma", 18)] "Emma"
      (by decide) (List.Perm.swap _ _ _)).2⟩

/-! ## The hash table: overwrite, not accumulation -/

/-- C4, as stated, fails: two inserts of the same key leave the second value, not the
sum of the two. -/
theorem insert_not_additive :
    (HashTable.insertAll 2 (HashTable.new 10) [("Emma", 18), ("Emma", 5)]).bind
        (fun t => t.get "Emma") = some 5 ∧
      (HashTable.insertAll 2 (HashTable.new 10) [("Emma", 18), ("Emma", 5)]).bind
        (fun t => t.get "Emma") ≠ some (18 + 5) := by
  decide

/-- C4, amended. After any sequence of inserts of ASCII keys into a table of positive
capacity, with capacity and number of inserts in the range where the hash arithmetic is
exact (`InRange`), `get k` for a key that was inserted returns the value of the last
`insert k`: each insert of a key replaces the value stored for it. -/
theorem get_last_inserted (c fuel : Nat) (ops : List (String × Int)) (k : String) (a : Int)
    (hr : InRange c ops) (hf : 2 ≤ fuel) (hlast : HashTable.lastValue ops k = some a) :
    ∃ t, HashTable.insertAll fuel (HashTable.new c) ops = some t ∧ t.get k = some a := by
  obtain ⟨t, hrun, _, hinv, hholds, _, hcap, _⟩ := HashTable.reach_spec c fuel hf ops hr
  have hmem := (HashTable.lastValue_isSome_iff ops k).mp ⟨a, hlast⟩
  obtain ⟨x, hx, hxk⟩ := List.mem_map.mp hmem
  have hk : asciiKey k := by rw [← hxk]; exact hr.2.2.2 x hx
  refine ⟨t, hrun, ?_⟩
  rw [HashTable.get_eq_exact t k hk hinv.pos hcap]
  exact HashTable.get_of_holds t hinv k a ((hholds k a).mpr hlast)

theorem get_last_inserted_witness :
    InRange 10 [("Emma", 18), ("Liam", 19), ("Emma", 5)] ∧ 2 ≤ 2 ∧
      HashTable.lastValue [("Emma", 18), ("Liam", 19), ("Emma", 5)] "Emma" = some 5 ∧
      ∃ t, HashTable.insertAll 2 (HashTable.new 10)
          [("Emma", 18), ("Liam", 19), ("Emma", 5)] = some t ∧ t.get "Emma" = some 5 :=
  ⟨by decide, by decide, by decide,
    get_last_inserted 10 2 [("Emma", 18), ("Liam", 19), ("Emma", 5)] "Emma" 5
      (by decide) (by decide) (by decide)⟩

/-! ## The hash table: load factor -/

/-- C5, as stated, fails: three inserts of distinct keys into a table of capacity 3 see
the load factors 0, 1/3 and 2/3, never resize, and return with `size = 3`, a load factor
of 1. -/
theorem load_factor_exceeded :
    (HashTable.insertAll 2 (HashTable.new 3) [("a", 1), ("b", 2), ("c", 3)]).map
      (fun t => (t.size, t.capacity, decide (10 * t.size ≤ 7 * t.capacity))) =
      some (3, 3, false) := by
  decide

/-- C5, amended. After each insert that returns, on a table built from the constructor
with a positive capacity (an `int`) by any sequence of inserts, for every key,
`10 * size ≤ 7 * capacity + 10`: the load factor is tested before the entry is stored, so
the count exceeds 0.7 of the capacity by at most one entry.  The inserts return when the
keys are ASCII and the capacity and the number of inserts are in the range where the
hash arithmetic is exact (`InRange`). -/
theorem load_factor_after_insert (c fuel : Nat) (ops : List (String × Int)) (k : String)
    (v : Int) (hc : 0 < c) (hfit : c < 2147483648) :
    (∀ t t', HashTable.insertAll fuel (HashTable.new c) ops = some t →
        HashTable.insert fuel t k v = some t' → 10 * t'.size ≤ 7 * t'.capacity + 10) ∧
      (InRange c (ops ++ [(k, v)]) → 2 ≤ fuel →
        ∃ t t', HashTable.insertAll fuel (HashTable.new c) ops = some t ∧
          HashTable.insert fuel t k v = some t') := by
  refine ⟨?_, ?_⟩
  · intro t t' hrun hins
    have hs : t.Shape :=
      HashTable.Shape.insertAll_keeps fuel ops _ t (HashTable.shape_new c hc hfit) hrun
    cases fuel with
    | zero => cases hins
    | succ n =>
      rw [HashTable.insert_succ] at hins
      exact (HashTable.Shape.insertWith_keeps _ (HashTable.Shape.insert_keeps n) t k v t' hs
        hins).2.2.2.2
  · intro hr hf
    obtain ⟨t, t', hrun, hins, _⟩ := HashTable.reach_insert c fuel ops k v hr hf
    exact ⟨t, t', hrun, hins⟩

theorem load_factor_after_insert_witness :
    0 < 1 ∧ 1 < 2147483648 ∧ InRange 1 ([("a", 1)] ++ [("b", 2)]) ∧ 2 ≤ 2 ∧
      ∃ t t', HashTable.insertAll 2 (HashTable.new 1) [("a", 1)] = some t ∧
        HashTable.insert 2 t "b" 2 = some t' ∧ 10 * t'.size ≤ 7 * t'.capacity + 10 :=
  ⟨by decide, by decide, by decide, by decide,
    ((load_factor_after_insert 1 2 [("a", 1)] "b" 2 (by decide) (by decide)).2
      (by decide) (by decide)).imp (fun t ht => ht.imp (fun t' ht' =>
        ⟨ht'.1, ht'.2,
          (load_factor_after_insert 1 2 [("a", 1)] "b" 2 (by decide) (by decide)).1 t t'
            ht'.1 ht'.2⟩))⟩

/-! ## The trie: case and non-letter characters -/

/-- C6. For every trie and every key, `search` returns the same value for every case
variant of the key.  In particular, after inserting any case variant of "Emma",
`search` returns the same value for "emma", "EMMA" and "Emma"; on an empty trie that
value is the inserted amount. -/
theorem trie_search_case_variant (t : Trie) :
    (∀ k k' : String, caseVariant k k' = true → t.search k = t.search k') ∧
      ∀ (variant : String) (amount : Int), caseVariant "Emma" variant = true →
        (t.insert variant amount).search "emma" = (t.insert variant amount).search "Emma" ∧
        (t.insert variant amount).search "EMMA" = (t.insert variant amount).search "Emma" ∧
        (Trie.new.insert variant amount).search "Emma" = amount := by
  have hgen : ∀ (u : Trie) (k k' : String), caseVariant k k' = true → u.search k = u.search k' := by
    intro u k k' h
    unfold Trie.search
    rw [lowerName_caseVariant h]
  refine ⟨hgen t, ?_⟩
  intro variant amount hv
  refine ⟨hgen _ "emma" "Emma" (by decide), hgen _ "EMMA" "Emma" (by decide), ?_⟩
  have hlow : lowerName variant = lowerName "Emma" := (lowerName_caseVariant hv).symm
  have hnorm : normalize variant = lowerName "Emma" := by
    unfold normalize
    rw [hlow]
    decide
  have hsum := Trie.search_insertAll [(variant, amount)] "Emma" (by decide)
  have hone : Trie.insertAll Trie.new [(variant, amount)] = Trie.new.insert variant amount := rfl
  rw [hone] at hsum
  rw [hsum]
  simp [amountFor, hnorm]

theorem trie_search_case_variant_witness :
    caseVariant "emma" "EMMA" = true ∧ caseVariant "Emma" "eMMa" = true ∧
      (Trie.insert Trie.new "eMMa" 18).search "emma" =
        (Trie.insert Trie.new "eMMa" 18).search "EMMA" ∧
      (Trie.insert Trie.new "eMMa" 18).search "Emma" = 18 :=
  ⟨by decide, by decide,
    (trie_search_case_variant (Trie.insert Trie.new "eMMa" 18)).1 "emma" "EMMA" (by decide),
    ((trie_search_case_variant Trie.new).2 "eMMa" 18 (by decide)).2.2⟩

/-- C7 at its failing input: after `insert("Mary-Ann", 5)` on an empty trie,
`search("Mary-Ann")` returns 0 while `search("MaryAnn")` returns 5, because `search`
stops at the hyphen that `insert` skipped. -/
theorem trie_search_stops_at_non_letter :
    (Trie.insert Trie.new "Mary-Ann" 5).search "Mary-Ann" = 0 ∧
      (Trie.insert Trie.new "Mary-Ann" 5).search "MaryAnn" = 5 := by
  decide

/-! ## Absent keys -/

/-- C8 at its failing input: on a freshly constructed table of capacity 10, `get("é")`
starts its scan at `table[-8]`, outside the slot vector, and has no defined result.  The
same on a table of capacity 100000000 for the ASCII key "Maximilian", whose index
overflows to -25573653. -/
theorem get_absent_negative_index :
    (HashTable.new 10).hashFunction "é" = some (-8) ∧
      (HashTable.new 10).homeSlot "é" = none ∧
      (HashTable.new 10).get "é" = none ∧
      (HashTable.new 100000000).hashFunction "Maximilian" = some (-25573653) ∧
      (HashTable.new 100000000).get "Maximilian" = none := by
  decide

/-- C9. On the empty trie `search` returns 0 for every key; and after any sequence of
inserts on an empty trie, `search k` returns 0 for every letters-only key `k` whose
lowercase form is the normalized key of none of the inserts. -/
theorem trie_search_absent :
    (∀ k : String, Trie.new.search k = 0) ∧
      ∀ (ops : List (String × Int)) (k : String), lettersOnly k →
        (∀ kv ∈ ops, normalize kv.1 ≠ lowerName k) →
        Trie.search (Trie.insertAll Trie.new ops) k = 0 := by
  refine ⟨fun k => TrieNode.searchFrom_new _, ?_⟩
  intro ops k hk habs
  rw [Trie.search_insertAll ops k hk]
  unfold amountFor
  have hnil : ops.filter (fun kv => normalize kv.1 = lowerName k) = [] := by
    rw [List.filter_eq_nil_iff]
    intro kv hkv h
    exact habs kv hkv (by simpa using h)
  rw [hnil]
  rfl

theorem trie_search_absent_witness :
    lettersOnly "Em" ∧
      (∀ kv ∈ ([("Emma", 18)] : List (String × Int)), normalize kv.1 ≠ lowerName "Em") ∧
      Trie.search (Trie.insertAll Trie.new [("Emma", 18)]) "Em" = 0 :=
  ⟨by decide, by decide, trie_search_absent.2 [("Emma", 18)] "Em" (by decide) (by decide)⟩

/-! ## Key enumeration -/

/-- C10 at its failing input: `insert("é", 5)` on a table of capacity 10 indexes the slot
vector at -8, outside its bounds, and has no defined result: it yields no table from
which `getAllKeys` lists "é". -/
theorem getAllKeys_after_negative_index :
    (HashTable.new 10).homeSlot "é" = none ∧
      (HashTable.insert 2 (HashTable.new 10) "é" 5).map HashTable.getAllKeys = none ∧
      (HashTable.insert 2 (HashTable.new 10) "é" 5).map HashTable.getAllKeys ≠ some ["é"] := by
  decide

/-! ## The trie on the empty key -/

/-- C11, as stated, fails: after `insert("", 5)` on an empty trie the root is a word end
with count 5, and `search("")` returns 5. -/
theorem trie_search_empty_key_nonzero :
    (Trie.insert Trie.new "" 5).search "" = 5 ∧ (Trie.insert Trie.new "" 5).search "" ≠ 0 := by
  decide

/-- C11, amended. After any sequence of inserts on an empty trie, `search("")` returns the
sum of the amounts of the inserts whose key contains no letter; it returns 0 when every
inserted key contains a letter. -/
theorem trie_search_empty_key (ops : List (String × Int)) :
    Trie.search (Trie.insertAll Trie.new ops) "" = amountFor [] ops ∧
      ((∀ kv ∈ ops, normalize kv.1 ≠ []) →
        Trie.search (Trie.insertAll Trie.new ops) "" = 0) := by
  have hk : lettersOnly "" := by decide
  have hs := Trie.search_insertAll ops "" hk
  have hl : lowerName "" = [] := rfl
  rw [hl] at hs
  refine ⟨hs, ?_⟩
  intro habs
  rw [hs]
  unfold amountFor
  have hnil : ops.filter (fun kv => normalize kv.1 = []) = [] := by
    rw [List.filter_eq_nil_iff]
    intro kv hkv h
    exact habs kv hkv (by simpa using h)
  rw [hnil]
  rfl

theorem trie_search_empty_key_witness :
    (∀ kv ∈ ([("Emma", 18), ("O-1", 3)] : List (String × Int)), normalize kv.1 ≠ []) ∧
      Trie.search (Trie.insertAll Trie.new [("Emma", 18), ("O-1", 3)]) "" = 0 :=
  ⟨by decide, (trie_search_empty_key [("Emma", 18), ("O-1", 3)]).2 (by decide)⟩

/-! ## Construction -/

/-- C12, as stated, fails: the constructor called with capacity 0 yields a table object,
with no slot, capacity 0 and size 0. -/
theorem construct_zero_not_rejected :
    HashTable.construct 0 = some ⟨[], 0, 0⟩ ∧ HashTable.construct 0 ≠ none := by
  decide

/-- C12, amended. The constructor fails for every negative capacity; for capacity 0 it
yields a table with no slot, and on that table neither `insert` nor `get` has a defined
result for any key. -/
theorem construct_nonpositive :
    (∀ c : Int, c < 0 → HashTable.construct c = none) ∧
      HashTable.construct 0 = some (HashTable.new 0) ∧
      ∀ (fuel : Nat) (key : String) (value : Int),
        HashTable.insert fuel (HashTable.new 0) key value = none ∧
        (HashTable.new 0).get key = none := by
  refine ⟨?_, rfl, ?_⟩
  · intro c hc
    simp [HashTable.construct, hc]
  · intro fuel key value
    have hget : (HashTable.new 0).get key = none := by
      unfold HashTable.get
      cases (HashTable.new 0).homeSlot key with
      | none => rfl
      | some index => rfl
    refine ⟨?_, hget⟩
    cases fuel with
    | zero => rfl
    | succ n =>
      rw [HashTable.insert_succ]
      unfold HashTable.insertWith
      rw [if_neg (by decide)]
      simp only
      cases (HashTable.new 0).homeSlot key with
      | none => rfl
      | some index => rfl

theorem construct_nonpositive_witness :
    (-1 : Int) < 0 ∧ HashTable.construct (-1) = none :=
  ⟨by decide, construct_nonpositive.1 (-1) (by decide)⟩

/-! ## The hash function -/

/-- C15, as stated, fails: `insert("Liam", 19)` on an empty table of capacity 2 sees the
load factor 0 and does not resize; the capacity after the insert is 2. -/
theorem liam_insert_no_resize :
    (HashTable.insert 2 (HashTable.new 2) "Liam" 19).map
      (fun t => (t.capacity, t.size, decide (t.capacity > 2))) = some (2, 1, false) := by
  decide

/-- C15, amended. `insert("Liam", 19)` on an empty table of capacity 2 returns without a
resize (the capacity stays 2, the size becomes 1) and `get("Liam")` returns 19 afterwards. -/
theorem liam_insert_then_get (fuel : Nat) (hf : 1 ≤ fuel) :
    ∃ t', HashTable.insert fuel (HashTable.new 2) "Liam" 19 = some t' ∧
      t'.capacity = 2 ∧ t'.size = 1 ∧ t'.get "Liam" = some 19 := by
  obtain ⟨f, rfl⟩ : ∃ f, fuel = f + 1 := ⟨fuel - 1, by omega⟩
  have hinv := HashTable.inv_new 2 (by decide)
  have hk : asciiKey "Liam" := by decide
  obtain ⟨t', hins, hcap, hpost⟩ :=
    HashTable.insert_direct f (HashTable.new 2) hinv (by decide) "Liam" 19
  have hsim := HashTable.insert_direct_eq f (HashTable.new 2) hinv (by decide) "Liam" 19 hk
    (by decide)
  refine ⟨t', by rw [hsim]; exact hins, hcap, ?_, ?_⟩
  · exact hpost.sizeNew (fun v0 => HashTable.not_holds_new 2 "Liam" v0)
  · rw [HashTable.get_eq_exact t' "Liam" hk hpost.inv.pos (by rw [hcap]; decide)]
    exact HashTable.get_of_holds t' hpost.inv "Liam" 19
      ((hpost.holds "Liam" 19).mpr (Or.inl ⟨rfl, rfl⟩))

theorem liam_insert_then_get_witness :
    1 ≤ 1 ∧ ∃ t', HashTable.insert 1 (HashTable.new 2) "Liam" 19 = some t' ∧
      t'.capacity = 2 ∧ t'.size = 1 ∧ t'.get "Liam" = some 19 :=
  ⟨by decide, liam_insert_then_get 1 (by decide)⟩

/-! ## Termination of insert -/

/-- C13 at its failing input: on a table of capacity 100000000, `hashFunction` of
"Maximilian" overflows the 32-bit `int` and returns -25573653; `insert("Maximilian", 2)`
indexes `table[-25573653]` and has no defined result, whatever the depth allowed for the
recursion through `resize`.  Likewise `insert("é", 5)` on a table of capacity 10, whose
index is -8. -/
theorem insert_overflowing_index :
    (HashTable.new 100000000).hashFunction "Maximilian" = some (-25573653) ∧
      (∀ fuel, HashTable.insert fuel (HashTable.new 100000000) "Maximilian" 2 = none) ∧
      (HashTable.new 10).hashFunction "é" = some (-8) ∧
      ∀ fuel, HashTable.insert fuel (HashTable.new 10) "é" 5 = none := by
  have hhome : (HashTable.new 100000000).homeSlot "Maximilian" = none := by decide
  have hhome2 : (HashTable.new 10).homeSlot "é" = none := by decide
  refine ⟨by decide, ?_, by decide, ?_⟩
  · intro fuel
    cases fuel with
    | zero => rfl
    | succ n =>
      rw [HashTable.insert_succ]
      unfold HashTable.insertWith
      rw [if_neg (by decide)]
      simp only [hhome]
  · intro fuel
    cases fuel with
    | zero => rfl
    | succ n =>
      rw [HashTable.insert_succ]
      unfold HashTable.insertWith
      rw [if_neg (by decide)]
      simp only [hhome2]

/-! ## Lookup in the presence of deleted slots -/

/-- C16 at its failing input: on a table of capacity 4, `hashFunction("é")` is -2, so the
scan of `get("é")` starts at `table[-2]`, outside the slot vector: `get` has no defined
result, where the scan described starts at a slot of the table and ends with a stored
value or 0. -/
theorem get_scan_negative_start :
    (HashTable.new 4).hashFunction "é" = some (-2) ∧
      (HashTable.new 4).homeSlot "é" = none ∧
      (HashTable.new 4).get "é" = none := by
  decide

/-! ## Resize -/

/-- C17 at its failing input: the table of capacity 2 that holds "é" and "a" (built by
two inserts on a table of capacity 1) has distinct current keys; its `resize` doubles the
capacity to 4, where `hashFunction("é")` is -2, and the re-insertion of "é" indexes
`table[-2]`: `resize` has no defined result. -/
theorem resize_negative_index :
    HashTable.insertAll 2 (HashTable.new 1) [("é", 1), ("a", 2)] =
        some ⟨[⟨"é", 1, true, false⟩, ⟨"a", 2, true, false⟩], 2, 2⟩ ∧
      (HashTable.new 4).hashFunction "é" = some (-2) ∧
      HashTable.resize 1 ⟨[⟨"é", 1, true, false⟩, ⟨"a", 2, true, false⟩], 2, 2⟩ = none := by
  decide

/-! ## The invariant of the reachable tables -/

/-- C19 at its failing input: `hashFunction("é")` is -8 on a table of capacity 10 and
-1978 on a table of the default capacity 10000; `insert("é", 5)` indexes the slot vector
there, outside its bounds, and has no defined result: it yields no table in which `size`
is the number of occupied slots. -/
theorem invariant_negative_index :
    (HashTable.new 10).hashFunction "é" = some (-8) ∧
      HashTable.insertAll 2 (HashTable.new 10) [("é", 5)] = none ∧
      (HashTable.new 10000).hashFunction "é" = some (-1978) ∧
      HashTable.insertAll 2 (HashTable.new 10000) [("é", 5)] = none := by
  decide

/-! ## The full-cycle branch of insert -/

/-- C20. In every table `t` that a sequence of inserts returns, started from a table
built by the constructor with a positive capacity (an `int`), and for every key: the
table `t1` on which the probe loop of `insert` runs (the table itself, or its `resize`
when the load-factor test fires) has a never-occupied slot, and the loop, started at the
slot `hashFunction(key)`, stops at a slot and does not report a full cycle; and an
`insert` changes the capacity only when the load-factor test fired.  The inserts and the
`resize` return when the keys are ASCII and the capacity and the number of inserts are in
the range where the hash arithmetic is exact (`InRange`). -/
theorem full_cycle_branch_unreachable (c fuel : Nat) (ops : List (String × Int)) (k : String)
    (v : Int) (t : HashTable) (hc : 0 < c) (hfit : c < 2147483648)
    (hrun : HashTable.insertAll fuel (HashTable.new c) ops = some t) :
    (∀ t1, (if 10 * t.size > 7 * t.capacity then HashTable.resize (fuel - 1) t else some t) =
        some t1 →
      (∃ (i : Nat) (e : Entry), t1.table[i]? = some e ∧ e.occupied = false) ∧
      ∀ h, t1.homeSlot k = some h →
        h < t1.capacity ∧
        t1.insertProbe k h t1.capacity h ≠ some ProbeResult.fullCycle ∧
        ∃ i, t1.insertProbe k h t1.capacity h = some (ProbeResult.found i)) ∧
      (∀ t', HashTable.insert fuel t k v = some t' → t'.capacity ≠ t.capacity →
        10 * t.size > 7 * t.capacity) ∧
      (InRange c (ops ++ [(k, v)]) → 2 ≤ fuel →
        ∃ t1 t', (if 10 * t.size > 7 * t.capacity then HashTable.resize (fuel - 1) t
            else some t) = some t1 ∧
          HashTable.insert fuel t k v = some t') := by
  have hs : t.Shape :=
    HashTable.Shape.insertAll_keeps fuel ops _ t (HashTable.shape_new c hc hfit) hrun
  have hcount : t.table.countP Entry.live ≤ t.table.length := List.countP_le_length _
  have hlen := hs.len
  have hsz := hs.sizeEq
  have hpos := hs.pos
  refine ⟨?_, ?_, ?_⟩
  · intro t1 h1
    obtain ⟨hs1, hroom⟩ : t1.Shape ∧ t1.size < t1.capacity := by
      by_cases hload : 10 * t.size > 7 * t.capacity
      · rw [if_pos hload] at h1
        unfold HashTable.resize at h1
        obtain ⟨a, b, c⟩ := HashTable.Shape.resizeWith_keeps _
          (HashTable.Shape.insert_keeps (fuel - 1)) t t1 hs h1
        exact ⟨a, by omega⟩
      · rw [if_neg hload] at h1
        cases h1
        exact ⟨hs, by omega⟩
    refine ⟨hs1.has_unoccupied hroom, ?_⟩
    intro h hh
    have hlt := HashTable.homeSlot_lt t1 k h hs1.pos hh
    obtain ⟨d, e0, _, hfound, _⟩ := hs1.probe_found hroom k h hlt
    refine ⟨hlt, ?_, _, hfound⟩
    rw [hfound]
    intro hfull
    cases hfull
  · intro t' hins hne
    by_contra hload
    cases fuel with
    | zero => cases hins
    | succ n =>
      rw [HashTable.insert_succ] at hins
      exact hne ((HashTable.Shape.insertWith_keeps _ (HashTable.Shape.insert_keeps n) t k v t' hs
        hins).2.2.2.1 (by omega))
  · intro hr hf
    obtain ⟨t0, t', hrun0, hins, _⟩ := HashTable.reach_insert c fuel ops k v hr hf
    rw [hrun] at hrun0
    cases hrun0
    obtain ⟨n, rfl⟩ : ∃ n, fuel = n + 1 := ⟨fuel - 1, by omega⟩
    by_cases hload : 10 * t.size > 7 * t.capacity
    · have hins2 := hins
      rw [HashTable.insert_succ] at hins2
      unfold HashTable.insertWith at hins2
      rw [if_pos hload] at hins2
      rw [if_pos hload]
      unfold HashTable.resize
      rw [Nat.add_sub_cancel]
      cases hr1 : HashTable.resizeWith (HashTable.insert n) t with
      | none => rw [hr1] at hins2; cases hins2
      | some t1 => exact ⟨t1, t', rfl, hins⟩
    · rw [if_neg hload]
      exact ⟨t, t', rfl, hins⟩

theorem full_cycle_branch_unreachable_witness :
    0 < 1 ∧ 1 < 2147483648 ∧
      HashTable.insertAll 2 (HashTable.new 1) [("ab", 1), ("ba", 2)] =
        some ⟨[⟨"ba", 2, true, false⟩, ⟨"ab", 1, true, false⟩], 2, 2⟩ ∧
      (HashTable.resize (2 - 1) ⟨[⟨"ba", 2, true, false⟩, ⟨"ab", 1, true, false⟩], 2, 2⟩).isSome =
        true ∧
      (HashTable.insert 2 ⟨[⟨"ba", 2, true, false⟩, ⟨"ab", 1, true, false⟩], 2, 2⟩ "c" 3).isSome =
        true ∧
      (∀ t1, (if 10 * 2 > 7 * 2 then
          HashTable.resize (2 - 1) ⟨[⟨"ba", 2, true, false⟩, ⟨"ab", 1, true, false⟩], 2, 2⟩
          else some ⟨[⟨"ba", 2, true, false⟩, ⟨"ab", 1, true, false⟩], 2, 2⟩) = some t1 →
        (∃ (i : Nat) (e : Entry), t1.table[i]? = some e ∧ e.occupied = false) ∧
        ∀ h, t1.homeSlot "c" = some h →
          h < t1.capacity ∧
          t1.insertProbe "c" h t1.capacity h ≠ some ProbeResult.fullCycle ∧
          ∃ i, t1.insertProbe "c" h t1.capacity h = some (ProbeResult.found i)) ∧
      (∀ t', HashTable.insert 2 ⟨[⟨"ba", 2, true, false⟩, ⟨"ab", 1, true, false⟩], 2, 2⟩ "c" 3 =
          some t' →
        t'.capacity ≠ 2 → 10 * 2 > 7 * 2) ∧
      (InRange 1 ([("ab", 1), ("ba", 2)] ++ [("c", 3)]) → 2 ≤ 2 →
        ∃ t1 t', (if 10 * 2 > 7 * 2 then
            HashTable.resize (2 - 1) ⟨[⟨"ba", 2, true, false⟩, ⟨"ab", 1, true, false⟩], 2, 2⟩
            else some ⟨[⟨"ba", 2, true, false⟩, ⟨"ab", 1, true, false⟩], 2, 2⟩) = some t1 ∧
          HashTable.insert 2 ⟨[⟨"ba", 2, true, false⟩, ⟨"ab", 1, true, false⟩], 2, 2⟩ "c" 3 =
            some t') :=
  ⟨by decide, by decide, by decide, by decide, by decide,
    full_cycle_branch_unreachable 1 2 [("ab", 1), ("ba", 2)] "c" 3
      ⟨[⟨"ba", 2, true, false⟩, ⟨"ab", 1, true, false⟩], 2, 2⟩ (by decide) (by decide)
      (by decide)⟩

/-! ## The loader keeps the two structures in step -/

end BabyNames
